import Mathlib

/-!
# Deliverybot orchestration core: shallow embedding

This file embeds the orchestration core of the deliverybot repository
(`src/apps/commands.ts` and the lock-store primitive) as pure Lean
functions, and settles the specification claims against them.

Provider calls (`createDeployment`, `createDeploymentStatus`, …) are
modelled by a `Provider` record of response functions; every embedded
handler returns the ordered list of provider calls it issued (its trace)
together with its result (`Except` models a thrown error).  The source is
single-threaded async/await code in which every provider call is awaited
to completion before the next statement runs, so a sequential trace is a
faithful model of its call order.
-/

namespace Deliverybot

/-- JavaScript `a || b` on an optional string: `undefined` and `""` are
falsy, so both fall back to the default. -/
def jsOr (s : Option String) (d : String) : String :=
  match s with
  | none => d
  | some v => if v = "" then d else v

/-- Whether `pat` occurs at the head of `s`. -/
def beginsWith : List Char → List Char → Bool
  | [], _ => true
  | _ :: _, [] => false
  | a :: as, b :: bs => a == b && beginsWith as bs

/-- Replace the first occurrence of `pat` in `s` by `repl` and keep the
rest unchanged (no occurrence: `s` unchanged; like JS, an empty pattern
matches at position 0). -/
def replaceFirstAux (pat repl : List Char) : List Char → List Char
  | [] => if beginsWith pat [] then repl else []
  | c :: rest =>
    if beginsWith pat (c :: rest) then
      repl ++ (c :: rest).drop pat.length
    else
      c :: replaceFirstAux pat repl rest

/-- JavaScript `String.prototype.replace` with a plain-string pattern:
replaces the first occurrence of `pat` (anywhere in the string, not only
as a prefix). -/
def replaceFirst (s pat repl : String) : String :=
  ⟨replaceFirstAux pat.data repl.data s.data⟩

/-- Split off everything up to the first occurrence of `sep`: the
leading segment, and the remainder after `sep` when `sep` occurs. -/
def splitFirst (sep : Char) : List Char → List Char × Option (List Char)
  | [] => ([], none)
  | c :: rest =>
    if c == sep then ([], some rest)
    else
      let r := splitFirst sep rest
      (c :: r.1, r.2)

/-- JavaScript `command.split(" ")[1]`: the second space-separated
segment when a space occurs (possibly `""`), otherwise `undefined`. -/
def secondToken (s : String) : Option String :=
  match splitFirst ' ' s.data with
  | (_, none) => none
  | (_, some rest) => some ⟨(splitFirst ' ' rest).1⟩

/-- JavaScript `sha.substr(0, n)`. -/
def takeChars (s : String) (n : Nat) : String :=
  ⟨s.data.take n⟩

/-- A sub-deployment spec of a target (`Deployment` interface in
`commands.ts`).  Fields that JavaScript defaults with `||` are `Option`s. -/
structure DeploymentSpec where
  task : Option String
  environment : Option String
  description : String
  payload : String
  auto_merge : Bool
deriving DecidableEq, Repr

/-- A named deployment policy (`Target` interface in `commands.ts`). -/
structure Target where
  name : String
  auto_deploy_on : Option String
  required_contexts : List String
  transient_environment : Bool
  production_environment : Bool
  deployments : List DeploymentSpec
deriving DecidableEq, Repr

/-- The resolved configuration: target name to target, in document order
(`Targets` type in `commands.ts`). -/
def Targets : Type := List (String × Target)

/-- `conf[target]` map lookup. -/
def lookupTarget (conf : Targets) (name : String) : Option Target :=
  match conf.find? (fun kv => kv.1 = name) with
  | none => none
  | some kv => some kv.2

/-- A deployment payload value: the dispatcher builds
`{ target: target.name, ...render(payload, data) }`, while teardown copies
a listed deployment's payload verbatim. -/
inductive PayloadVal where
  | tagged (target : String) (rendered : String)
  | raw (p : String)
deriving DecidableEq, Repr

/-- A deployment record as listed by the provider
(`ReposListDeploymentsResponseItem`). -/
structure DeploymentRecord where
  id : Nat
  environment : String
  payload : PayloadVal
  description : Option String
  transient_environment : Bool
  production_environment : Bool
deriving DecidableEq, Repr

/-- The rendering context built in `deployCommit` (`params`). -/
structure RenderData where
  ref : String
  target : String
  owner : String
  repo : String
  short_sha : String
  commit : String
  pr : Option Nat
deriving DecidableEq, Repr

/-- The body built by `getDeployBody` (without the `owner`/`repo`/`ref`
spread in by the caller). -/
structure DeployBody where
  task : String
  transient_environment : Bool
  production_environment : Bool
  environment : String
  auto_merge : Bool
  required_contexts : List String
  description : String
  payload : PayloadVal
deriving DecidableEq, Repr

/-- The body of the `task = "remove"` deployment issued by `handlePRClose`
(the field set actually passed there; `auto_merge` is absent). -/
structure RemoveBody where
  ref : String
  task : String
  required_contexts : List String
  payload : PayloadVal
  environment : String
  description : String
  transient_environment : Bool
  production_environment : Bool
deriving DecidableEq, Repr

/-- The two shapes `repos.createDeployment` is invoked with. -/
inductive CreateParams where
  | deploy (owner repo ref : String) (body : DeployBody)
  | remove (owner repo : String) (body : RemoveBody)
deriving DecidableEq, Repr

/-- The filter object passed to `repos.listDeployments`. -/
inductive DeployFilter where
  | bySha (sha : String)
  | byRef (ref : String)
deriving DecidableEq, Repr

/-- The pull-request data `handlePRDeploy` reads from `pulls.get`. -/
structure Pull where
  number : Nat
  head_ref : String
  head_sha : String
deriving DecidableEq, Repr

/-- One provider call, as recorded in a handler's trace. -/
inductive Call where
  | getCommit (sha : String)
  | getConfig (ref : String)
  | getRef (ref : String)
  | getPull (number : Nat)
  | canWrite (username : String)
  | listDeployments (filter : DeployFilter)
  | createDeployment (params : CreateParams)
  | createDeploymentStatus (id : Nat) (state : String)
  | createComment (issue_number : Nat) (body : String)
deriving DecidableEq, Repr

/-- The remote provider and external collaborators, as response
functions.  `render` is the external template renderer (pure). -/
structure Provider where
  getCommit : String → Except String String
  getConfig : String → Except String Targets
  getGlobalConfig : Except String Targets
  getRef : String → Except String String
  getPull : Nat → Except String Pull
  canWrite : String → Except String Bool
  listDeployments : DeployFilter → Except String (List DeploymentRecord)
  createDeployment : CreateParams → Except String DeploymentRecord
  createDeploymentStatus : Nat → String → Except String Unit
  createComment : Nat → String → Except String Unit
  render : String → RenderData → String

/-- `getDeployBody` from `commands.ts`: defaults `task` to `"deploy"` and
`environment` to `"production"` (JS `||`), renders environment,
description and payload, copies the target's flags and required
contexts, and tags the payload with the target name. -/
def getDeployBody (render : String → RenderData → String)
    (target : Target) (d : DeploymentSpec) (data : RenderData) : DeployBody :=
  { task := jsOr d.task "deploy"
    transient_environment := target.transient_environment
    production_environment := target.production_environment
    environment := render (jsOr d.environment "production") data
    auto_merge := d.auto_merge
    required_contexts := target.required_contexts
    description := render d.description data
    payload := .tagged target.name (render d.payload data) }

/-- The `params` render context built in `deployCommit`. -/
def deployData (owner repo target ref sha : String) (pr : Option Nat)
    (commit : String) : RenderData :=
  { ref := ref, target := target, owner := owner, repo := repo
    short_sha := takeChars sha 7, commit := commit, pr := pr }

/-- The `createDeployment` parameters the deploy loop builds for one
sub-deployment spec. -/
def deployParams (p : Provider) (owner repo ref : String) (target : Target)
    (data : RenderData) (d : DeploymentSpec) : CreateParams :=
  .deploy owner repo ref (getDeployBody p.render target d data)

/-- The `for (const deployment of targetVal.deployments)` loop of
`deployCommit`: build each body in declaration order, await
`createDeployment`, push the record on success and rethrow on the first
failure (later entries are never attempted). -/
def deployLoop (p : Provider) (owner repo ref : String) (target : Target)
    (data : RenderData) :
    List DeploymentSpec → List Call × Except String (List DeploymentRecord)
  | [] => ([], .ok [])
  | d :: rest =>
    let body := deployParams p owner repo ref target data d
    match p.createDeployment body with
    | .error e => ([.createDeployment body], .error e)
    | .ok r =>
      let next := deployLoop p owner repo ref target data rest
      (.createDeployment body :: next.1,
        match next.2 with
        | .ok rs => .ok (r :: rs)
        | .error e => .error e)

/-- `deployCommit` from `commands.ts`: fetch the commit, build the render
context, resolve the per-ref configuration, fail when the target is
absent or has no sub-deployments, and otherwise run the deploy loop. -/
def deployCommit (p : Provider) (owner repo target ref sha : String)
    (pr : Option Nat) : List Call × Except String (List DeploymentRecord) :=
  match p.getCommit sha with
  | .error e => ([.getCommit sha], .error e)
  | .ok commit =>
    let data := deployData owner repo target ref sha pr commit
    match p.getConfig ref with
    | .error e => ([.getCommit sha, .getConfig ref], .error e)
    | .ok conf =>
      match lookupTarget conf target with
      | none =>
        ([.getCommit sha, .getConfig ref],
          .error ("Deployment target \"" ++ target ++ "\" does not exist"))
      | some targetVal =>
        if targetVal.deployments = [] then
          ([.getCommit sha, .getConfig ref],
            .error ("Deployment target \"" ++ target ++ "\" has no deployments"))
        else
          let next := deployLoop p owner repo ref targetVal data targetVal.deployments
          ([.getCommit sha, .getConfig ref] ++ next.1, next.2)

/-- The `createDeployment` parameter lists of a trace, in order. -/
def createCalls (tr : List Call) : List CreateParams :=
  tr.filterMap (fun c =>
    match c with
    | .createDeployment b => some b
    | _ => none)

/-- The comment bodies posted in a trace, in order. -/
def commentCalls (tr : List Call) : List String :=
  tr.filterMap (fun c =>
    match c with
    | .createComment _ b => some b
    | _ => none)

/-- `autoDeployTarget` from `commands.ts`: skip when `auto_deploy_on` is
absent or empty (JS falsy); otherwise normalize the ref with
`autoDeploy.replace("refs/", "")`, resolve it to a sha, list the
deployments for that sha, skip when some listed deployment's environment
is among the raw (unrendered, undefaulted) environments of the target's
sub-deployment specs, and otherwise dispatch via `deployCommit`, catching
and logging any dispatch error.  Errors from `getRef` and
`listDeployments` are outside the `try` block and are rethrown. -/
def autoDeployTarget (p : Provider) (owner repo target : String)
    (targetVal : Target) : List Call × Except String Unit :=
  match targetVal.auto_deploy_on with
  | none => ([], .ok ())
  | some autoDeploy =>
    if autoDeploy = "" then ([], .ok ())
    else
      let ref := replaceFirst autoDeploy "refs/" ""
      match p.getRef ref with
      | .error e => ([.getRef ref], .error e)
      | .ok sha =>
        match p.listDeployments (.bySha sha) with
        | .error e => ([.getRef ref, .listDeployments (.bySha sha)], .error e)
        | .ok deploys =>
          let environments := targetVal.deployments.map (fun d => d.environment)
          if deploys.any (fun d => environments.contains (some d.environment)) then
            ([.getRef ref, .listDeployments (.bySha sha)], .ok ())
          else
            let next := deployCommit p owner repo target ref sha none
            ([.getRef ref, .listDeployments (.bySha sha)] ++ next.1, .ok ())

/-- The `for (const key in config)` loop of `handleAutoDeploy`: each
target is awaited in turn; an error thrown by `autoDeployTarget`
propagates and aborts the remaining iterations. -/
def autoDeployList (p : Provider) (owner repo : String) :
    List (String × Target) → List Call × Except String Unit
  | [] => ([], .ok ())
  | (key, targetVal) :: rest =>
    let first := autoDeployTarget p owner repo key targetVal
    match first.2 with
    | .error e => (first.1, .error e)
    | .ok _ =>
      let next := autoDeployList p owner repo rest
      (first.1 ++ next.1, next.2)

/-- `handleAutoDeploy` from `commands.ts`: load the repository
configuration (`context.config("deploy.yml")`) and evaluate every
configured target in document order. -/
def handleAutoDeploy (p : Provider) (owner repo : String) :
    List Call × Except String Unit :=
  match p.getGlobalConfig with
  | .error e => ([], .error e)
  | .ok conf => autoDeployList p owner repo conf

set_option linter.unusedVariables false in
/-- The `push`/`status`/`check_run` registration in `commands`: the
handler receives the event context (including the event's ref) and calls
`handleAutoDeploy`, which never reads the event's ref. -/
def commandsOnPush (p : Provider) (owner repo : String)
    (eventRef : String) : List Call × Except String Unit :=
  handleAutoDeploy p owner repo

/-- The failure comment body posted by `handlePRDeploy`'s catch block. -/
def failComment (message : String) : String :=
  ":rotating_light: Failed to trigger deployment. :rotating_light:\n" ++ message

/-- `handlePRDeploy` from `commands.ts`: extract the second
whitespace-separated token of the comment (`command.split(" ")[1]`, which
is `undefined` when absent — property lookup then coerces it to the key
`"undefined"`), fetch the pull request, stop silently when the commenting
user lacks write permission, otherwise dispatch; any error thrown by the
`try` block is reported as a comment on the issue. -/
def handlePRDeploy (p : Provider) (owner repo : String)
    (issue_number : Nat) (username command : String) :
    List Call × Except String Unit :=
  let target :=
    match secondToken command with
    | some t => t
    | none => "undefined"
  let post := fun (tr : List Call) (e : String) =>
    (tr ++ [Call.createComment issue_number (failComment e)],
      match p.createComment issue_number (failComment e) with
      | .ok _ => Except.ok ()
      | .error e2 => Except.error e2)
  match p.getPull issue_number with
  | .error e => post [.getPull issue_number] e
  | .ok pr =>
    match p.canWrite username with
    | .error e => post [.getPull issue_number, .canWrite username] e
    | .ok false => ([.getPull issue_number, .canWrite username], .ok ())
    | .ok true =>
      let next := deployCommit p owner repo target pr.head_ref pr.head_sha
        (some pr.number)
      match next.2 with
      | .ok _ =>
        ([.getPull issue_number, .canWrite username] ++ next.1, .ok ())
      | .error e =>
        post ([.getPull issue_number, .canWrite username] ++ next.1) e

/-- JavaScript object assignment `environments[env] = deployment` on a
string-keyed object: updates the existing entry in place, otherwise
appends (insertion order preserved). -/
def envInsert (env : String) (d : DeploymentRecord) :
    List (String × DeploymentRecord) → List (String × DeploymentRecord)
  | [] => [(env, d)]
  | (k, v) :: rest =>
    if k = env then (env, d) :: rest else (k, v) :: envInsert env d rest

/-- The first loop of `handlePRClose` over `deployments.data.reverse()`:
skip non-transient deployments (log only); for transient ones attempt to
mark the deployment `inactive` — a failure there is caught and logged —
and in either case record the deployment as its environment's latest
entry. -/
def prCloseMark (p : Provider) :
    List DeploymentRecord → List (String × DeploymentRecord) →
    List Call × List (String × DeploymentRecord)
  | [], environments => ([], environments)
  | d :: rest, environments =>
    if d.transient_environment then
      match p.createDeploymentStatus d.id "inactive" with
      | .ok _ =>
        let next := prCloseMark p rest (envInsert d.environment d environments)
        (.createDeploymentStatus d.id "inactive" :: next.1, next.2)
      | .error _ =>
        let next := prCloseMark p rest (envInsert d.environment d environments)
        (.createDeploymentStatus d.id "inactive" :: next.1, next.2)
    else
      prCloseMark p rest environments

/-- The `task = "remove"` body built in `handlePRClose` for a recorded
deployment: ref is the PR head sha, required contexts are empty, and
payload, environment, description (defaulted to `""`) and the two
environment flags are copied from the record. -/
def mkRemoveBody (sha : String) (d : DeploymentRecord) : RemoveBody :=
  { ref := sha
    task := "remove"
    required_contexts := []
    payload := d.payload
    environment := d.environment
    description := jsOr d.description ""
    transient_environment := d.transient_environment
    production_environment := d.production_environment }

/-- The second loop of `handlePRClose` over the recorded environments:
issue one `"remove"` deployment per entry; a provider failure is caught
and logged and the loop continues. -/
def prCloseRemove (p : Provider) (owner repo sha : String) :
    List (String × DeploymentRecord) → List Call
  | [] => []
  | (_, d) :: rest =>
    match p.createDeployment (.remove owner repo (mkRemoveBody sha d)) with
    | .ok _ =>
      .createDeployment (.remove owner repo (mkRemoveBody sha d)) ::
        prCloseRemove p owner repo sha rest
    | .error _ =>
      .createDeployment (.remove owner repo (mkRemoveBody sha d)) ::
        prCloseRemove p owner repo sha rest

/-- `handlePRClose` from `commands.ts`: list the deployments for the PR
head ref (the provider lists most-recent-first), walk them in reverse so
that the latest deployment per environment ends up recorded, then issue
one removal per recorded environment. -/
def handlePRClose (p : Provider) (owner repo ref sha : String) :
    List Call × Except String Unit :=
  match p.listDeployments (.byRef ref) with
  | .error e => ([.listDeployments (.byRef ref)], .error e)
  | .ok ds =>
    let marked := prCloseMark p ds.reverse []
    let removes := prCloseRemove p owner repo sha marked.2
    (.listDeployments (.byRef ref) :: (marked.1 ++ removes), .ok ())

/-!
## Lock store

Modelled from the spec: the repository ships only the lock-store test
(`InMemStore.lock` itself, `src/store`, is not under `src/`).  Spec §4.6
and §9 describe it as a mapping from key to a FIFO queue of pending
continuations plus an "in use" flag: acquire enqueues and waits, release
dequeues the next waiter; a failure inside the critical section still
releases the lock.  We model each critical section (`Job`) as a list of
atomic effects on a shared counter, executed one effect per scheduler
quantum, with an arbitrary interleaving across keys given by a schedule
of keys; the run emits a trace of start/finish events.
-/

/-- Modelled from the spec: one `withLock(key, f)` critical section — an
id, the atomic effects `f` performs on the shared counter, and whether
`f` ultimately fails (the promise rejects). -/
structure Job where
  jid : Nat
  effects : List (Nat → Nat)
  fails : Bool

/-- Modelled from the spec: the per-key lock state — the currently
running critical section ("in use" flag) and the FIFO queue of waiters. -/
structure KeyState where
  running : Option Job
  queue : List Job

/-- The lock store's state: key to `KeyState`, absent key = idle. -/
def LockState : Type := List (String × KeyState)

def idleKey : KeyState := { running := none, queue := [] }

def lookupKS : LockState → String → KeyState
  | [], _ => idleKey
  | (k0, ks) :: rest, k => if k0 = k then ks else lookupKS rest k

def setKS (k : String) (ks : KeyState) : LockState → LockState
  | [] => [(k, ks)]
  | (k0, v) :: rest =>
    if k0 = k then (k, ks) :: rest else (k0, v) :: setKS k ks rest

/-- An observable event of a lock-store run: a critical section starting
or settling (successfully or not) on a key. -/
inductive LEvent where
  | start (key : String) (jid : Nat)
  | settle (key : String) (jid : Nat) (failed : Bool)
deriving DecidableEq, Repr

/-- Modelled from the spec: `withLock(k, j)` call arrival — start `j`
immediately when the key is idle, otherwise append it to the key's FIFO
queue. -/
def acquire (k : String) (j : Job) (st : LockState) :
    LockState × List LEvent :=
  let ks := lookupKS st k
  match ks.running with
  | none => (setKS k { running := some j, queue := ks.queue } st, [.start k j.jid])
  | some _ => (setKS k { ks with queue := ks.queue ++ [j] } st, [])

/-- N concurrent `withLock` calls arriving in call order. -/
def acquireAll : List (String × Job) → LockState → LockState × List LEvent
  | [], st => (st, [])
  | (k, j) :: rest, st =>
    let first := acquire k j st
    let next := acquireAll rest first.1
    (next.1, first.2 ++ next.2)

/-- Modelled from the spec: release on completion (success or failure
alike) — dequeue and start the next waiter if any. -/
def finishJob (k : String) (j : Job) (ks : KeyState) :
    KeyState × List LEvent :=
  match ks.queue with
  | [] => (idleKey, [.settle k j.jid j.fails])
  | nxt :: rest =>
    ({ running := some nxt, queue := rest },
      [.settle k j.jid j.fails, .start k nxt.jid])

/-- One scheduler quantum given to key `k`: the running critical section
performs its next atomic effect on the shared counter; when its effects
are exhausted it settles and the lock is released to the next waiter. -/
def stepKey (k : String) (st : LockState) (g : Nat) :
    LockState × Nat × List LEvent :=
  let ks := lookupKS st k
  match ks.running with
  | none => (st, g, [])
  | some j =>
    match j.effects with
    | [] =>
      let fin := finishJob k j ks
      (setKS k fin.1 st, g, fin.2)
    | [e] =>
      let fin := finishJob k { j with effects := [] } ks
      (setKS k fin.1 st, e g, fin.2)
    | e :: e2 :: es =>
      (setKS k { ks with running := some { j with effects := e2 :: es } } st,
        e g, [])

/-- Run a schedule of quanta (an arbitrary interleaving across keys). -/
def runSched (sched : List String) (st : LockState) (g : Nat) :
    LockState × Nat × List LEvent :=
  match sched with
  | [] => (st, g, [])
  | k :: rest =>
    let s1 := stepKey k st g
    let s2 := runSched rest s1.1 s1.2.1
    (s2.1, s2.2.1, s1.2.2 ++ s2.2.2)

/-- A full run: the concurrent calls all arrive (in call order), then the
scheduler interleaves the keys as `sched` dictates. -/
def lockRun (calls : List (String × Job)) (sched : List String) (g : Nat) :
    LockState × Nat × List LEvent :=
  let acq := acquireAll calls []
  let run := runSched sched acq.1 g
  (run.1, run.2.1, acq.2 ++ run.2.2)

/-- The events of one key, in order. -/
def projKey (k : String) (tr : List LEvent) : List LEvent :=
  tr.filter (fun e =>
    match e with
    | .start k' _ => k' == k
    | .settle k' _ _ => k' == k)

/-- Alternation checker for one key's event sequence, threading the id of
the currently open critical section: a start is legal only when none is
open (mutual exclusion), a settle only for the open one, and `none` as
the final result of a prefix means every started section settled. -/
def altState : Option Nat → List LEvent → Option (Option Nat)
  | o, [] => some o
  | none, .start _ i :: rest => altState (some i) rest
  | none, .settle _ _ _ :: _ => none
  | some _, .start _ _ :: _ => none
  | some i, .settle _ i' _ :: rest =>
    if i = i' then altState none rest else none

/-- A key's event sequence is serializable: sections are well-nested,
pairwise non-overlapping, each settled before the next starts. -/
def altSeq (tr : List LEvent) : Bool :=
  (altState none tr).isSome

def startIds (tr : List LEvent) : List Nat :=
  tr.filterMap (fun e =>
    match e with
    | .start _ i => some i
    | _ => none)

def settleIds (tr : List LEvent) : List Nat :=
  tr.filterMap (fun e =>
    match e with
    | .settle _ i _ => some i
    | _ => none)

/-- The ids of the calls made on key `k`, in call order. -/
def callIds (k : String) (calls : List (String × Job)) : List Nat :=
  (calls.filter (fun c => c.1 == k)).map (fun c => c.2.jid)

/-- Scheduler quanta a job needs to run to completion. -/
def quanta (j : Job) : Nat := max 1 j.effects.length

def quantaSum (jobs : List Job) : Nat := (jobs.map quanta).sum

def applyEffects (es : List (Nat → Nat)) (g : Nat) : Nat :=
  es.foldl (fun a e => e a) g

/-- The shared counter after N plain sequential applications. -/
def seqApply (jobs : List Job) (g : Nat) : Nat :=
  jobs.foldl (fun a j => applyEffects j.effects a) g

/-!
## Theorems
-/

theorem deployLoop_all_ok (p : Provider) (owner repo ref : String)
    (target : Target) (data : RenderData) (ds : List DeploymentSpec)
    (h : ∀ d ∈ ds, ∃ r,
      p.createDeployment (deployParams p owner repo ref target data d) = .ok r) :
    deployLoop p owner repo ref target data ds =
      (ds.map (fun d =>
        Call.createDeployment (deployParams p owner repo ref target data d)),
       .ok (ds.filterMap (fun d =>
        (p.createDeployment (deployParams p owner repo ref target data d)).toOption))) := by
  induction ds with
  | nil => simp [deployLoop]
  | cons d rest ih =>
    obtain ⟨r, hr⟩ := h d (by simp)
    have hrest := ih (fun x hx => h x (by simp [hx]))
    simp [deployLoop, hr, hrest, Except.toOption]

theorem deployLoop_first_fail (p : Provider) (owner repo ref : String)
    (target : Target) (data : RenderData)
    (pre : List DeploymentSpec) (d : DeploymentSpec)
    (post : List DeploymentSpec) (e : String)
    (hpre : ∀ x ∈ pre, ∃ r,
      p.createDeployment (deployParams p owner repo ref target data x) = .ok r)
    (hd : p.createDeployment (deployParams p owner repo ref target data d) = .error e) :
    deployLoop p owner repo ref target data (pre ++ d :: post) =
      ((pre ++ [d]).map (fun x =>
        Call.createDeployment (deployParams p owner repo ref target data x)),
       .error e) := by
  induction pre with
  | nil => simp [deployLoop, hd]
  | cons x xs ih =>
    obtain ⟨r, hr⟩ := hpre x (by simp)
    have hxs := ih (fun y hy => hpre y (by simp [hy]))
    simp [deployLoop, hr, hxs]

theorem deployCommit_eq_loop (p : Provider)
    (owner repo target ref sha : String) (pr : Option Nat)
    (commit : String) (conf : Targets) (targetVal : Target)
    (hc : p.getCommit sha = .ok commit)
    (hconf : p.getConfig ref = .ok conf)
    (ht : lookupTarget conf target = some targetVal)
    (hne : targetVal.deployments ≠ []) :
    deployCommit p owner repo target ref sha pr =
      ([.getCommit sha, .getConfig ref] ++
        (deployLoop p owner repo ref targetVal
          (deployData owner repo target ref sha pr commit) targetVal.deployments).1,
       (deployLoop p owner repo ref targetVal
          (deployData owner repo target ref sha pr commit) targetVal.deployments).2) := by
  simp [deployCommit, hc, hconf, ht, hne]

theorem createCalls_map_create (f : DeploymentSpec → CreateParams)
    (l : List DeploymentSpec) :
    createCalls (l.map (fun x => Call.createDeployment (f x))) = l.map f := by
  induction l with
  | nil => simp [createCalls]
  | cons x xs ih => simpa [createCalls] using ih

/-- C1: for every target and commit context, `deployCommit` issues one
`createDeployment` request per entry of the target's `deployments` list,
in declaration order; on the first provider failure it rethrows without
attempting any later sub-deployment (the trace stops at the failing
body), and the full list of created records is returned exactly when
every sub-deployment succeeded. -/
theorem deployCommit_fail_fast (p : Provider)
    (owner repo target ref sha : String) (pr : Option Nat)
    (commit : String) (conf : Targets) (targetVal : Target)
    (hc : p.getCommit sha = .ok commit)
    (hconf : p.getConfig ref = .ok conf)
    (ht : lookupTarget conf target = some targetVal)
    (hne : targetVal.deployments ≠ []) :
    ((∀ d ∈ targetVal.deployments, ∃ r,
        p.createDeployment (deployParams p owner repo ref targetVal
          (deployData owner repo target ref sha pr commit) d) = .ok r) →
      createCalls (deployCommit p owner repo target ref sha pr).1 =
        targetVal.deployments.map (deployParams p owner repo ref targetVal
          (deployData owner repo target ref sha pr commit)) ∧
      (deployCommit p owner repo target ref sha pr).2 =
        .ok (targetVal.deployments.filterMap (fun d =>
          (p.createDeployment (deployParams p owner repo ref targetVal
            (deployData owner repo target ref sha pr commit) d)).toOption))) ∧
    (∀ pre d post e, targetVal.deployments = pre ++ d :: post →
      (∀ x ∈ pre, ∃ r,
        p.createDeployment (deployParams p owner repo ref targetVal
          (deployData owner repo target ref sha pr commit) x) = .ok r) →
      p.createDeployment (deployParams p owner repo ref targetVal
        (deployData owner repo target ref sha pr commit) d) = .error e →
      createCalls (deployCommit p owner repo target ref sha pr).1 =
        (pre ++ [d]).map (deployParams p owner repo ref targetVal
          (deployData owner repo target ref sha pr commit)) ∧
      (deployCommit p owner repo target ref sha pr).2 = .error e) := by
  have hcommit := deployCommit_eq_loop p owner repo target ref sha pr commit
    conf targetVal hc hconf ht hne
  constructor
  · intro hok
    have hloop := deployLoop_all_ok p owner repo ref targetVal
      (deployData owner repo target ref sha pr commit) targetVal.deployments hok
    constructor
    · simp only [hcommit, hloop]
      simpa [createCalls] using createCalls_map_create
        (deployParams p owner repo ref targetVal
          (deployData owner repo target ref sha pr commit)) targetVal.deployments
    · simp [hcommit, hloop]
  · intro pre d post e hsplit hpre hd
    have hloop := deployLoop_first_fail p owner repo ref targetVal
      (deployData owner repo target ref sha pr commit) pre d post e hpre hd
    rw [hsplit] at hcommit
    constructor
    · simp only [hcommit, hloop]
      simpa [createCalls] using createCalls_map_create
        (deployParams p owner repo ref targetVal
          (deployData owner repo target ref sha pr commit)) (pre ++ [d])
    · simp [hcommit, hloop]

/-! Concrete fixtures used by witnesses and counterexamples. -/

def specA : DeploymentSpec :=
  { task := none, environment := some "stagingA", description := "descA"
    payload := "plA", auto_merge := false }

def specB : DeploymentSpec :=
  { task := none, environment := some "stagingB", description := "descB"
    payload := "plB", auto_merge := false }

def targetAB : Target :=
  { name := "web", auto_deploy_on := some "refs/heads/main"
    required_contexts := [], transient_environment := false
    production_environment := false, deployments := [specA, specB] }

def confAB : Targets := [("web", targetAB)]

def recA : DeploymentRecord :=
  { id := 1, environment := "stagingA", payload := .raw "x"
    description := none, transient_environment := false
    production_environment := false }

/-- A provider whose `createDeployment` accepts the `"stagingA"`
environment and rejects everything else. -/
def pC1 : Provider :=
  { getCommit := fun _ => .ok "commitdata"
    getConfig := fun _ => .ok confAB
    getGlobalConfig := .ok confAB
    getRef := fun _ => .ok "sha1"
    getPull := fun _ => .error "unused"
    canWrite := fun _ => .ok false
    listDeployments := fun _ => .ok []
    createDeployment := fun params =>
      match params with
      | .deploy _ _ _ b =>
        if b.environment = "stagingA" then .ok recA else .error "boom"
      | .remove _ _ _ => .error "unused"
    createDeploymentStatus := fun _ _ => .error "unused"
    createComment := fun _ _ => .ok ()
    render := fun s _ => s }

theorem deployCommit_fail_fast_witness :
    createCalls (deployCommit pC1 "o" "r" "web" "main" "abc1234" none).1 =
      ([specA] ++ [specB]).map (deployParams pC1 "o" "r" "main" targetAB
        (deployData "o" "r" "web" "main" "abc1234" none "commitdata")) ∧
    (deployCommit pC1 "o" "r" "web" "main" "abc1234" none).2 = .error "boom" :=
  (deployCommit_fail_fast pC1 "o" "r" "web" "main" "abc1234" none "commitdata"
      confAB targetAB rfl rfl rfl (by decide)).2
    [specA] specB [] "boom" rfl
    (fun x hx => ⟨recA, by
      have hxa : x = specA := by simpa using hx
      subst hxa
      rfl⟩)
    rfl

/-- C2: in one auto-deploy evaluation of a target, if the provider's
deployment list for the resolved sha contains a deployment whose
environment is among the raw environments of the target's sub-deployment
specs, `autoDeployTarget` returns after `getRef` and `listDeployments`
with no `createDeployment` call. -/
theorem autoDeploy_skips_when_env_deployed (p : Provider)
    (owner repo target : String) (targetVal : Target)
    (autoDeploy sha : String) (deploys : List DeploymentRecord)
    (d : DeploymentRecord)
    (had : targetVal.auto_deploy_on = some autoDeploy) (hne : autoDeploy ≠ "")
    (href : p.getRef (replaceFirst autoDeploy "refs/" "") = .ok sha)
    (hlist : p.listDeployments (.bySha sha) = .ok deploys)
    (hd : d ∈ deploys)
    (henv : some d.environment ∈ targetVal.deployments.map (fun x => x.environment)) :
    autoDeployTarget p owner repo target targetVal =
      ([.getRef (replaceFirst autoDeploy "refs/" ""),
        .listDeployments (.bySha sha)], .ok ()) ∧
    createCalls (autoDeployTarget p owner repo target targetVal).1 = [] := by
  have hfound :
      deploys.any (fun x =>
        (targetVal.deployments.map (fun y => y.environment)).contains
          (some x.environment)) = true := by
    rw [List.any_eq_true]
    exact ⟨d, hd, by simpa using henv⟩
  have heq : autoDeployTarget p owner repo target targetVal =
      ([.getRef (replaceFirst autoDeploy "refs/" ""),
        .listDeployments (.bySha sha)], .ok ()) := by
    simp only [autoDeployTarget, had, hne, if_false, ite_false, href, hlist]
    simp only [List.any_eq_true] at hfound
    obtain ⟨x, hx, hcx⟩ := hfound
    simp [List.any_eq_true]
    exact fun hno => absurd (by simpa using hcx)
      (by simpa using hno x hx)
  exact ⟨heq, by rw [heq]; rfl⟩

/-- A deployment record already live in the `"stagingA"` environment. -/
def recLiveA : DeploymentRecord :=
  { id := 7, environment := "stagingA", payload := .raw "y"
    description := some "live", transient_environment := true
    production_environment := false }

/-- A provider that reports `recLiveA` as an existing deployment for the
resolved sha. -/
def pC2 : Provider :=
  { pC1 with listDeployments := fun _ => .ok [recLiveA] }

theorem autoDeploy_skips_when_env_deployed_witness :
    autoDeployTarget pC2 "o" "r" "web" targetAB =
      ([.getRef "heads/main", .listDeployments (.bySha "sha1")], .ok ()) ∧
    createCalls (autoDeployTarget pC2 "o" "r" "web" targetAB).1 = [] := by
  have h := autoDeploy_skips_when_env_deployed pC2 "o" "r" "web" targetAB
    "refs/heads/main" "sha1" [recLiveA] recLiveA rfl (by decide) rfl rfl
    (by decide) (by decide)
  have hrf : replaceFirst "refs/heads/main" "refs/" "" = "heads/main" := by decide
  rwa [hrf] at h

/-- C8: a well-formed `/deploy <target>` comment from a user for whom
the write-permission check returns `false` stops after the permission
check: no deployment is created and no comment is posted. -/
theorem prDeploy_no_write_silent (p : Provider) (owner repo : String)
    (n : Nat) (user cmd t : String) (pr : Pull)
    (_htok : secondToken cmd = some t)
    (hpull : p.getPull n = .ok pr)
    (hw : p.canWrite user = .ok false) :
    handlePRDeploy p owner repo n user cmd =
      ([.getPull n, .canWrite user], .ok ()) ∧
    createCalls (handlePRDeploy p owner repo n user cmd).1 = [] ∧
    commentCalls (handlePRDeploy p owner repo n user cmd).1 = [] := by
  have heq : handlePRDeploy p owner repo n user cmd =
      ([.getPull n, .canWrite user], .ok ()) := by
    simp [handlePRDeploy, hpull, hw]
  exact ⟨heq, by rw [heq]; rfl, by rw [heq]; rfl⟩

def pullF : Pull := { number := 5, head_ref := "feat", head_sha := "shaf1234" }

def pC8 : Provider :=
  { pC1 with getPull := fun _ => .ok pullF }

theorem prDeploy_no_write_silent_witness :
    handlePRDeploy pC8 "o" "r" 5 "mallory" "/deploy staging" =
      ([.getPull 5, .canWrite "mallory"], .ok ()) ∧
    createCalls (handlePRDeploy pC8 "o" "r" 5 "mallory" "/deploy staging").1 = [] ∧
    commentCalls (handlePRDeploy pC8 "o" "r" 5 "mallory" "/deploy staging").1 = [] :=
  prDeploy_no_write_silent pC8 "o" "r" 5 "mallory" "/deploy staging" "staging"
    pullF (by decide) rfl rfl

/-- A provider for the malformed-command scenario: the pull request and
permission check succeed, the per-ref configuration has no target named
`"undefined"`, and posting comments succeeds. -/
def pC7 : Provider :=
  { pC1 with
    getPull := fun _ => .ok pullF
    canWrite := fun _ => .ok true }

/-- C7 counterexample: a `/deploy` comment with no target token does
*not* fail silently — the handler proceeds with the target key
`"undefined"`, dispatch fails, and the catch block posts the failure
comment on the issue.  (No deployment is created, but a comment is
posted, refuting the claim.) -/
theorem prDeploy_missing_target_cex :
    commentCalls (handlePRDeploy pC7 "o" "r" 5 "alice" "/deploy").1 =
      [failComment "Deployment target \"undefined\" does not exist"] ∧
    createCalls (handlePRDeploy pC7 "o" "r" 5 "alice" "/deploy").1 = [] := by
  decide

/-- C7 amended: a `/deploy` comment with no second whitespace-separated
token proceeds with the JavaScript property key `"undefined"`; when the
user has write permission and that target does not exist in the resolved
configuration, no deployment is created but the handler posts the fixed
failure comment naming the missing target. -/
theorem prDeploy_missing_target_reports (p : Provider) (owner repo : String)
    (n : Nat) (user cmd : String) (pr : Pull) (commit : String)
    (conf : Targets)
    (htok : secondToken cmd = none)
    (hpull : p.getPull n = .ok pr)
    (hw : p.canWrite user = .ok true)
    (hcommit : p.getCommit pr.head_sha = .ok commit)
    (hconf : p.getConfig pr.head_ref = .ok conf)
    (hlook : lookupTarget conf "undefined" = none) :
    createCalls (handlePRDeploy p owner repo n user cmd).1 = [] ∧
    commentCalls (handlePRDeploy p owner repo n user cmd).1 =
      [failComment "Deployment target \"undefined\" does not exist"] := by
  have hdc : deployCommit p owner repo "undefined" pr.head_ref pr.head_sha
      (some pr.number) =
      ([.getCommit pr.head_sha, .getConfig pr.head_ref],
        .error "Deployment target \"undefined\" does not exist") := by
    simp [deployCommit, hcommit, hconf, hlook]
  have htr : (handlePRDeploy p owner repo n user cmd).1 =
      [.getPull n, .canWrite user, .getCommit pr.head_sha,
        .getConfig pr.head_ref,
        .createComment n (failComment "Deployment target \"undefined\" does not exist")] := by
    simp [handlePRDeploy, htok, hpull, hw, hdc]
  exact ⟨by rw [htr]; rfl, by rw [htr]; rfl⟩

theorem prDeploy_missing_target_reports_witness :
    createCalls (handlePRDeploy pC7 "o" "r" 5 "alice" "/deploy").1 = [] ∧
    commentCalls (handlePRDeploy pC7 "o" "r" 5 "alice" "/deploy").1 =
      [failComment "Deployment target \"undefined\" does not exist"] :=
  prDeploy_missing_target_reports pC7 "o" "r" 5 "alice" "/deploy" pullF
    "commitdata" confAB (by decide) rfl rfl rfl rfl (by decide)

theorem autoDeployTarget_branch (p : Provider) (owner repo target : String)
    (targetVal : Target) (ad sha : String) (deploys : List DeploymentRecord)
    (had : targetVal.auto_deploy_on = some ad) (hne : ad ≠ "")
    (hr : p.getRef (replaceFirst ad "refs/" "") = .ok sha)
    (hl : p.listDeployments (.bySha sha) = .ok deploys) :
    autoDeployTarget p owner repo target targetVal =
      if deploys.any (fun x =>
          (targetVal.deployments.map (fun y => y.environment)).contains
            (some x.environment)) then
        ([.getRef (replaceFirst ad "refs/" ""),
          .listDeployments (.bySha sha)], .ok ())
      else
        (.getRef (replaceFirst ad "refs/" "") ::
          .listDeployments (.bySha sha) ::
          (deployCommit p owner repo target
            (replaceFirst ad "refs/" "") sha none).1, .ok ()) := by
  simp only [autoDeployTarget, had, hne, if_false, ite_false, hr, hl]
  cases deploys.any (fun x =>
      (targetVal.deployments.map (fun y => y.environment)).contains
        (some x.environment)) with
  | true => simp
  | false => simp

/-- C6 counterexample: the push-event handler dispatches although the
event's ref (`"refs/heads/other"`) does not match the target's normalized
`auto_deploy_on` ref (`"heads/main"`): the behaviour is identical for any
event ref, and the trace contains a `createDeployment` call. -/
theorem autoDeploy_ignores_event_ref_cex :
    commandsOnPush pC1 "o" "r" "refs/heads/other" =
      commandsOnPush pC1 "o" "r" "refs/heads/main" ∧
    createCalls (commandsOnPush pC1 "o" "r" "refs/heads/other").1 ≠ [] :=
  ⟨rfl, by decide⟩

/-- C6 amended: the evaluator normalizes `auto_deploy_on` by removing the
first occurrence of `"refs/"` and resolves that ref itself; the event's
ref is never compared (the handler's output is independent of it).  A
target with an absent or empty `auto_deploy_on` is skipped with no
provider calls; otherwise evaluation starts by resolving the normalized
ref. -/
theorem autoDeploy_normalizes_and_ignores_event_ref (p : Provider)
    (owner repo : String) :
    (∀ r r', commandsOnPush p owner repo r = commandsOnPush p owner repo r') ∧
    (∀ target targetVal, targetVal.auto_deploy_on = none →
      autoDeployTarget p owner repo target targetVal = ([], .ok ())) ∧
    (∀ target targetVal, targetVal.auto_deploy_on = some "" →
      autoDeployTarget p owner repo target targetVal = ([], .ok ())) ∧
    (∀ target targetVal ad, targetVal.auto_deploy_on = some ad → ad ≠ "" →
      ∃ rest, (autoDeployTarget p owner repo target targetVal).1 =
        .getRef (replaceFirst ad "refs/" "") :: rest) := by
  refine ⟨fun r r' => rfl, ?_, ?_, ?_⟩
  · intro target targetVal had
    simp [autoDeployTarget, had]
  · intro target targetVal had
    simp [autoDeployTarget, had]
  · intro target targetVal ad had hne
    cases hr : p.getRef (replaceFirst ad "refs/" "") with
    | error e =>
      exact ⟨[], by simp [autoDeployTarget, had, hne, hr]⟩
    | ok sha =>
      cases hl : p.listDeployments (.bySha sha) with
      | error e =>
        exact ⟨[.listDeployments (.bySha sha)],
          by simp [autoDeployTarget, had, hne, hr, hl]⟩
      | ok deploys =>
        have hb := autoDeployTarget_branch p owner repo target targetVal
          ad sha deploys had hne hr hl
        cases hf : deploys.any (fun x =>
            (targetVal.deployments.map (fun y => y.environment)).contains
              (some x.environment)) with
        | true =>
          rw [hf] at hb
          simp only [reduceIte] at hb
          exact ⟨[.listDeployments (.bySha sha)], by rw [hb]⟩
        | false =>
          rw [hf] at hb
          simp only [Bool.false_eq_true, if_false] at hb
          exact ⟨.listDeployments (.bySha sha) ::
              (deployCommit p owner repo target
                (replaceFirst ad "refs/" "") sha none).1,
            by rw [hb]⟩

theorem autoDeploy_normalizes_and_ignores_event_ref_witness :
    commandsOnPush pC1 "o" "r" "refs/heads/other" =
      commandsOnPush pC1 "o" "r" "refs/heads/feat" ∧
    ∃ rest, (autoDeployTarget pC1 "o" "r" "web" targetAB).1 =
      .getRef "heads/main" :: rest := by
  have h := autoDeploy_normalizes_and_ignores_event_ref pC1 "o" "r"
  have h4 := h.2.2.2 "web" targetAB "refs/heads/main" rfl (by decide)
  have hrf : replaceFirst "refs/heads/main" "refs/" "" = "heads/main" := by
    decide
  rw [hrf] at h4
  exact ⟨h.1 "refs/heads/other" "refs/heads/feat", h4⟩

/-- A two-target configuration where evaluating the first target fails at
`getRef`. -/
def targetM1 : Target :=
  { name := "a", auto_deploy_on := some "refs/heads/m1"
    required_contexts := [], transient_environment := false
    production_environment := false, deployments := [specA] }

def targetM2 : Target :=
  { name := "b", auto_deploy_on := some "refs/heads/m2"
    required_contexts := [], transient_environment := false
    production_environment := false, deployments := [specA] }

def confM : Targets := [("a", targetM1), ("b", targetM2)]

def pC9 : Provider :=
  { pC1 with
    getGlobalConfig := .ok confM
    getConfig := fun _ => .ok confM
    getRef := fun r => if r = "heads/m1" then .error "boom" else .ok "sha2" }

def pC9b : Provider := { pC9 with getGlobalConfig := .ok [("b", targetM2)] }

/-- C9 counterexample: a `getRef` failure while evaluating the first
target propagates out of `handleAutoDeploy` (the event handler rethrows)
and the second target is never evaluated — its trace is empty — although
evaluating it alone would create a deployment. -/
theorem autoDeploy_eval_failure_propagates_cex :
    handleAutoDeploy pC9 "o" "r" = ([.getRef "heads/m1"], .error "boom") ∧
    createCalls (handleAutoDeploy pC9b "o" "r").1 ≠ [] :=
  ⟨rfl, by decide⟩

/-- C9 amended: a failure inside `deployCommit` during one target's
auto-deploy is caught and logged — `autoDeployTarget` still returns
successfully whenever `getRef` and `listDeployments` succeed, so the
remaining targets are evaluated; but an error from `autoDeployTarget`
itself (a `getRef` or `listDeployments` failure) aborts the iteration
and propagates. -/
theorem autoDeploy_dispatch_failure_isolated (p : Provider)
    (owner repo : String) :
    (∀ target targetVal ad sha deploys,
      targetVal.auto_deploy_on = some ad → ad ≠ "" →
      p.getRef (replaceFirst ad "refs/" "") = .ok sha →
      p.listDeployments (.bySha sha) = .ok deploys →
      (autoDeployTarget p owner repo target targetVal).2 = .ok ()) ∧
    (∀ key targetVal rest,
      (autoDeployTarget p owner repo key targetVal).2 = .ok () →
      autoDeployList p owner repo ((key, targetVal) :: rest) =
        ((autoDeployTarget p owner repo key targetVal).1 ++
          (autoDeployList p owner repo rest).1,
         (autoDeployList p owner repo rest).2)) ∧
    (∀ key targetVal rest e,
      (autoDeployTarget p owner repo key targetVal).2 = .error e →
      autoDeployList p owner repo ((key, targetVal) :: rest) =
        ((autoDeployTarget p owner repo key targetVal).1, .error e)) := by
  refine ⟨?_, ?_, ?_⟩
  · intro target targetVal ad sha deploys had hne hr hl
    have hb := autoDeployTarget_branch p owner repo target targetVal
      ad sha deploys had hne hr hl
    cases hf : deploys.any (fun x =>
        (targetVal.deployments.map (fun y => y.environment)).contains
          (some x.environment)) with
    | true =>
      rw [hf] at hb
      simp only [reduceIte] at hb
      rw [hb]
    | false =>
      rw [hf] at hb
      simp only [Bool.false_eq_true, if_false] at hb
      rw [hb]
  · intro key targetVal rest h
    simp [autoDeployList, h]
  · intro key targetVal rest e h
    simp [autoDeployList, h]

/-- A provider on which dispatch itself always fails. -/
def pC9w : Provider :=
  { pC9 with
    getRef := fun _ => .ok "sha2"
    createDeployment := fun _ => .error "denied" }

theorem autoDeploy_dispatch_failure_isolated_witness :
    (autoDeployTarget pC9w "o" "r" "a" targetM1).2 = .ok () ∧
    autoDeployList pC9w "o" "r" [("a", targetM1), ("b", targetM2)] =
      ((autoDeployTarget pC9w "o" "r" "a" targetM1).1 ++
        (autoDeployList pC9w "o" "r" [("b", targetM2)]).1,
       (autoDeployList pC9w "o" "r" [("b", targetM2)]).2) := by
  have h := autoDeploy_dispatch_failure_isolated pC9w "o" "r"
  have h1 := h.1 "a" targetM1 "refs/heads/m1" "sha2" [] rfl (by decide)
    rfl rfl
  exact ⟨h1, h.2.1 "a" targetM1 [("b", targetM2)] h1⟩

/-!
### Teardown lemmas (C3, C4, C10)
-/

/-- JavaScript object lookup `environments[env]`. -/
def envLookup (env : String) :
    List (String × DeploymentRecord) → Option DeploymentRecord
  | [] => none
  | (k, v) :: rest => if k = env then some v else envLookup env rest

def envKeys (m : List (String × DeploymentRecord)) : List String :=
  m.map (fun kv => kv.1)

/-- The `"remove"` bodies submitted in a trace, in order. -/
def removeCalls (tr : List Call) : List RemoveBody :=
  tr.filterMap (fun c =>
    match c with
    | .createDeployment (.remove _ _ b) => some b
    | _ => none)

/-- The predicate "transient deployment for environment `e`". -/
def isTransientFor (e : String) (d : DeploymentRecord) : Bool :=
  d.transient_environment && d.environment == e

theorem findQ_append_some {α : Type} (p : α → Bool) (l1 l2 : List α) (x : α)
    (h : l1.find? p = some x) : (l1 ++ l2).find? p = some x := by
  induction l1 with
  | nil => simp at h
  | cons a as ih =>
    cases hp : p a with
    | true =>
      rw [List.find?_cons_of_pos _ hp] at h
      rw [List.cons_append, List.find?_cons_of_pos _ hp]
      exact h
    | false =>
      rw [List.find?_cons_of_neg _ (by simp [hp])] at h
      rw [List.cons_append, List.find?_cons_of_neg _ (by simp [hp])]
      exact ih h

theorem findQ_append_none {α : Type} (p : α → Bool) (l1 l2 : List α)
    (h : l1.find? p = none) : (l1 ++ l2).find? p = l2.find? p := by
  induction l1 with
  | nil => simp
  | cons a as ih =>
    cases hp : p a with
    | true =>
      rw [List.find?_cons_of_pos _ hp] at h
      exact absurd h (by simp)
    | false =>
      rw [List.find?_cons_of_neg _ (by simp [hp])] at h
      rw [List.cons_append, List.find?_cons_of_neg _ (by simp [hp])]
      exact ih h

theorem envKeys_insert (env : String) (d : DeploymentRecord)
    (m : List (String × DeploymentRecord)) :
    envKeys (envInsert env d m) =
      if env ∈ envKeys m then envKeys m else envKeys m ++ [env] := by
  induction m with
  | nil => simp [envInsert, envKeys]
  | cons kv rest ih =>
    obtain ⟨k, v⟩ := kv
    by_cases hk : k = env
    · subst hk
      have hmem : k ∈ envKeys ((k, v) :: rest) := by simp [envKeys]
      rw [if_pos hmem]
      simp [envInsert, envKeys]
    · have h1 : envInsert env d ((k, v) :: rest) =
          (k, v) :: envInsert env d rest := by
        simp [envInsert, hk]
      have h3 : envKeys ((k, v) :: rest) = k :: envKeys rest := rfl
      rw [h1]
      have h2 : envKeys ((k, v) :: envInsert env d rest) =
          k :: envKeys (envInsert env d rest) := rfl
      rw [h2, h3, ih]
      by_cases hmem : env ∈ envKeys rest
      · rw [if_pos hmem, if_pos (by simp [hmem])]
      · rw [if_neg hmem, if_neg (by
          simp only [List.mem_cons, not_or]
          exact ⟨fun h => hk h.symm, hmem⟩)]
        rw [List.cons_append]

theorem envKeys_insert_nodup (env : String) (d : DeploymentRecord)
    (m : List (String × DeploymentRecord)) (h : (envKeys m).Nodup) :
    (envKeys (envInsert env d m)).Nodup := by
  rw [envKeys_insert]
  by_cases hmem : env ∈ envKeys m
  · rwa [if_pos hmem]
  · rw [if_neg hmem]
    refine List.Nodup.append h (List.nodup_singleton env) ?_
    intro a ha hb
    rw [List.mem_singleton] at hb
    subst hb
    exact hmem ha

theorem envLookup_insert_self (env : String) (d : DeploymentRecord)
    (m : List (String × DeploymentRecord)) :
    envLookup env (envInsert env d m) = some d := by
  induction m with
  | nil => simp [envInsert, envLookup]
  | cons kv rest ih =>
    obtain ⟨k, v⟩ := kv
    by_cases hk : k = env
    · simp [envInsert, hk, envLookup]
    · simp [envInsert, hk, envLookup, ih]

theorem envLookup_insert_ne (e env : String) (d : DeploymentRecord)
    (m : List (String × DeploymentRecord)) (h : e ≠ env) :
    envLookup e (envInsert env d m) = envLookup e m := by
  induction m with
  | nil =>
    simp only [envInsert, envLookup]
    rw [if_neg (fun hx => h hx.symm)]
  | cons kv rest ih =>
    obtain ⟨k, v⟩ := kv
    by_cases hk : k = env
    · subst hk
      have hne : ¬ k = e := fun hx => h hx.symm
      simp [envInsert, envLookup, hne]
    · have h1 : envInsert env d ((k, v) :: rest) =
          (k, v) :: envInsert env d rest := by
        simp [envInsert, hk]
      rw [h1]
      by_cases he : k = e
      · simp [envLookup, he]
      · simp [envLookup, he, ih]

theorem mem_envInsert (kv : String × DeploymentRecord) (env : String)
    (d : DeploymentRecord) (m : List (String × DeploymentRecord))
    (h : kv ∈ envInsert env d m) : kv = (env, d) ∨ kv ∈ m := by
  induction m with
  | nil => simpa [envInsert] using h
  | cons kv0 rest ih =>
    obtain ⟨k0, v0⟩ := kv0
    by_cases hk : k0 = env
    · simp [envInsert, hk] at h
      rcases h with h | h
      · exact Or.inl (by simp [h])
      · exact Or.inr (by simp [h])
    · simp only [envInsert, hk, if_false, ite_false, List.mem_cons] at h
      rcases h with h | h
      · exact Or.inr (by simp [h])
      · rcases ih h with h2 | h2
        · exact Or.inl h2
        · exact Or.inr (List.mem_cons_of_mem _ h2)

theorem envLookup_mem (k : String) (v : DeploymentRecord)
    (m : List (String × DeploymentRecord)) (h : envLookup k m = some v) :
    (k, v) ∈ m := by
  induction m with
  | nil => simp [envLookup] at h
  | cons kv rest ih =>
    obtain ⟨k0, v0⟩ := kv
    by_cases hk : k0 = k
    · subst hk
      simp only [envLookup, if_pos rfl] at h
      obtain rfl : v0 = v := by simpa using h
      exact List.mem_cons_self _ _
    · simp only [envLookup, if_neg hk] at h
      exact List.mem_cons_of_mem _ (ih h)

theorem mem_envLookup_of_nodup (k : String) (v : DeploymentRecord)
    (m : List (String × DeploymentRecord)) (hnd : (envKeys m).Nodup)
    (h : (k, v) ∈ m) : envLookup k m = some v := by
  induction m with
  | nil => simp at h
  | cons kv rest ih =>
    obtain ⟨k0, v0⟩ := kv
    have hcons : envKeys ((k0, v0) :: rest) = k0 :: envKeys rest := rfl
    rw [hcons] at hnd
    rcases List.mem_cons.mp h with h0 | h0
    · simp only [Prod.mk.injEq] at h0
      obtain ⟨rfl, rfl⟩ := h0
      simp [envLookup]
    · have hk : ¬ k0 = k := by
        intro hkk
        subst hkk
        have hkmem : k0 ∈ envKeys rest :=
          List.mem_map.mpr ⟨(k0, v), h0, rfl⟩
        exact (List.nodup_cons.mp hnd).1 hkmem
      simp only [envLookup, if_neg hk]
      exact ih (List.nodup_cons.mp hnd).2 h0

theorem prCloseMark_trace (p : Provider) (ds : List DeploymentRecord)
    (m : List (String × DeploymentRecord)) :
    (prCloseMark p ds m).1 =
      (ds.filter (fun d => d.transient_environment)).map
        (fun d => Call.createDeploymentStatus d.id "inactive") := by
  induction ds generalizing m with
  | nil => simp [prCloseMark]
  | cons d rest ih =>
    cases ht : d.transient_environment with
    | true =>
      cases hs : p.createDeploymentStatus d.id "inactive" with
      | ok u => simp [prCloseMark, ht, hs, ih]
      | error e => simp [prCloseMark, ht, hs, ih]
    | false => simp [prCloseMark, ht, ih]

theorem prCloseMark_env_entries (p : Provider) (ds : List DeploymentRecord)
    (m : List (String × DeploymentRecord)) (kv : String × DeploymentRecord)
    (h : kv ∈ (prCloseMark p ds m).2) :
    kv ∈ m ∨ (kv.2 ∈ ds ∧ kv.2.transient_environment = true ∧
      kv.1 = kv.2.environment) := by
  induction ds generalizing m with
  | nil => exact Or.inl (by simpa [prCloseMark] using h)
  | cons d rest ih =>
    cases ht : d.transient_environment with
    | false =>
      have hstep : (prCloseMark p (d :: rest) m).2 =
          (prCloseMark p rest m).2 := by
        simp [prCloseMark, ht]
      rw [hstep] at h
      rcases ih m h with h0 | ⟨h1, h2, h3⟩
      · exact Or.inl h0
      · exact Or.inr ⟨List.mem_cons_of_mem _ h1, h2, h3⟩
    | true =>
      have hstep : (prCloseMark p (d :: rest) m).2 =
          (prCloseMark p rest (envInsert d.environment d m)).2 := by
        cases hs : p.createDeploymentStatus d.id "inactive" with
        | ok u => simp [prCloseMark, ht, hs]
        | error e2 => simp [prCloseMark, ht, hs]
      rw [hstep] at h
      rcases ih (envInsert d.environment d m) h with h0 | ⟨h1, h2, h3⟩
      · rcases mem_envInsert kv d.environment d m h0 with h4 | h4
        · subst h4
          exact Or.inr ⟨List.mem_cons_self _ _, ht, rfl⟩
        · exact Or.inl h4
      · exact Or.inr ⟨List.mem_cons_of_mem _ h1, h2, h3⟩

theorem prCloseMark_keys_nodup (p : Provider) (ds : List DeploymentRecord)
    (m : List (String × DeploymentRecord)) (h : (envKeys m).Nodup) :
    (envKeys (prCloseMark p ds m).2).Nodup := by
  induction ds generalizing m with
  | nil => simpa [prCloseMark] using h
  | cons d rest ih =>
    cases ht : d.transient_environment with
    | true =>
      have hstep : (prCloseMark p (d :: rest) m).2 =
          (prCloseMark p rest (envInsert d.environment d m)).2 := by
        cases hs : p.createDeploymentStatus d.id "inactive" with
        | ok u => simp [prCloseMark, ht, hs]
        | error e2 => simp [prCloseMark, ht, hs]
      rw [hstep]
      exact ih _ (envKeys_insert_nodup _ _ _ h)
    | false =>
      have hstep : (prCloseMark p (d :: rest) m).2 =
          (prCloseMark p rest m).2 := by
        simp [prCloseMark, ht]
      rw [hstep]
      exact ih _ h

theorem prCloseMark_lookup (p : Provider) (l : List DeploymentRecord)
    (m : List (String × DeploymentRecord)) (e : String) :
    envLookup e (prCloseMark p l m).2 =
      match l.reverse.find? (isTransientFor e) with
      | some d => some d
      | none => envLookup e m := by
  induction l generalizing m with
  | nil => simp [prCloseMark]
  | cons d rest ih =>
    have hrev : (d :: rest).reverse = rest.reverse ++ [d] := by simp
    cases ht : d.transient_environment with
    | false =>
      have hPd : isTransientFor e d = false := by simp [isTransientFor, ht]
      have hstep : (prCloseMark p (d :: rest) m).2 =
          (prCloseMark p rest m).2 := by
        simp [prCloseMark, ht]
      rw [hstep, ih, hrev]
      cases hfind : rest.reverse.find? (isTransientFor e) with
      | some x =>
        rw [findQ_append_some (isTransientFor e) rest.reverse [d] x hfind]
      | none =>
        rw [findQ_append_none (isTransientFor e) rest.reverse [d] hfind]
        rw [List.find?_cons_of_neg _ (by simp [hPd])]
        simp
    | true =>
      have hstep : (prCloseMark p (d :: rest) m).2 =
          (prCloseMark p rest (envInsert d.environment d m)).2 := by
        cases hs : p.createDeploymentStatus d.id "inactive" with
        | ok u => simp [prCloseMark, ht, hs]
        | error e2 => simp [prCloseMark, ht, hs]
      rw [hstep, ih, hrev]
      cases hfind : rest.reverse.find? (isTransientFor e) with
      | some x =>
        rw [findQ_append_some (isTransientFor e) rest.reverse [d] x hfind]
      | none =>
        rw [findQ_append_none (isTransientFor e) rest.reverse [d] hfind]
        by_cases he : d.environment = e
        · have hPd : isTransientFor e d = true := by
            simp [isTransientFor, ht, he]
          rw [List.find?_cons_of_pos _ hPd]
          rw [← he]
          simp [envLookup_insert_self]
        · have hPd : isTransientFor e d = false := by
            simp [isTransientFor, ht, he]
          rw [List.find?_cons_of_neg _ (by simp [hPd])]
          simp [envLookup_insert_ne e d.environment d m (fun hx => he hx.symm)]

theorem prCloseRemove_trace (p : Provider) (owner repo sha : String)
    (m : List (String × DeploymentRecord)) :
    prCloseRemove p owner repo sha m =
      m.map (fun kv =>
        Call.createDeployment (.remove owner repo (mkRemoveBody sha kv.2))) := by
  induction m with
  | nil => simp [prCloseRemove]
  | cons kv rest ih =>
    obtain ⟨k, d⟩ := kv
    cases hc : p.createDeployment (.remove owner repo (mkRemoveBody sha d)) with
    | ok u => simp [prCloseRemove, hc, ih]
    | error e => simp [prCloseRemove, hc, ih]

theorem removeCalls_status_map (l : List DeploymentRecord) :
    removeCalls (l.map
      (fun d => Call.createDeploymentStatus d.id "inactive")) = [] := by
  induction l with
  | nil => rfl
  | cons d rest ih => simp [removeCalls, ih]

theorem removeCalls_remove_map (owner repo sha : String)
    (m : List (String × DeploymentRecord)) :
    removeCalls (m.map (fun kv =>
        Call.createDeployment (.remove owner repo (mkRemoveBody sha kv.2)))) =
      m.map (fun kv => mkRemoveBody sha kv.2) := by
  induction m with
  | nil => rfl
  | cons kv rest ih => simpa [removeCalls] using ih

theorem removeCalls_append (t1 t2 : List Call) :
    removeCalls (t1 ++ t2) = removeCalls t1 ++ removeCalls t2 := by
  simp [removeCalls, List.filterMap_append]

theorem handlePRClose_trace (p : Provider) (owner repo ref sha : String)
    (ds : List DeploymentRecord)
    (hlist : p.listDeployments (.byRef ref) = .ok ds) :
    (handlePRClose p owner repo ref sha).1 =
      .listDeployments (.byRef ref) ::
        ((prCloseMark p ds.reverse []).1 ++
          prCloseRemove p owner repo sha (prCloseMark p ds.reverse []).2) := by
  simp [handlePRClose, hlist]

theorem handlePRClose_removeCalls (p : Provider) (owner repo ref sha : String)
    (ds : List DeploymentRecord)
    (hlist : p.listDeployments (.byRef ref) = .ok ds) :
    removeCalls (handlePRClose p owner repo ref sha).1 =
      (prCloseMark p ds.reverse []).2.map (fun kv => mkRemoveBody sha kv.2) := by
  rw [handlePRClose_trace p owner repo ref sha ds hlist]
  have hhead : removeCalls (Call.listDeployments (.byRef ref) ::
      ((prCloseMark p ds.reverse []).1 ++
        prCloseRemove p owner repo sha (prCloseMark p ds.reverse []).2)) =
      removeCalls ((prCloseMark p ds.reverse []).1 ++
        prCloseRemove p owner repo sha (prCloseMark p ds.reverse []).2) := by
    simp [removeCalls]
  rw [hhead, removeCalls_append, prCloseMark_trace, removeCalls_status_map,
    prCloseRemove_trace, removeCalls_remove_map]
  simp
/-- C3: within one teardown pass over the deployments listed for the
closed PR's head ref (most-recent-first), at most one `"remove"`
deployment is issued per distinct environment name, and the one issued is
templated from the most recent transient deployment for that environment
(the first match in the provider's list): its ref is the PR head sha, its
task `"remove"`, its required contexts empty, and payload, environment
and the two environment flags are copied from that record. -/
theorem prClose_one_remove_per_env (p : Provider) (owner repo ref sha : String)
    (ds : List DeploymentRecord)
    (hlist : p.listDeployments (.byRef ref) = .ok ds) :
    ((removeCalls (handlePRClose p owner repo ref sha).1).map
        (fun b => b.environment)).Nodup ∧
    (∀ b ∈ removeCalls (handlePRClose p owner repo ref sha).1,
      ∃ d, ds.find? (isTransientFor b.environment) = some d ∧
        b.ref = sha ∧ b.task = "remove" ∧ b.required_contexts = [] ∧
        b.payload = d.payload ∧ b.environment = d.environment ∧
        b.transient_environment = d.transient_environment ∧
        b.production_environment = d.production_environment) := by
  have hrc := handlePRClose_removeCalls p owner repo ref sha ds hlist
  have hnodup : (envKeys (prCloseMark p ds.reverse []).2).Nodup :=
    prCloseMark_keys_nodup p ds.reverse [] (by simp [envKeys])
  constructor
  · rw [hrc, List.map_map]
    have hpt : ∀ kv ∈ (prCloseMark p ds.reverse []).2,
        ((fun b => b.environment) ∘ (fun kv => mkRemoveBody sha kv.2)) kv =
          kv.1 := by
      intro kv hkv
      rcases prCloseMark_env_entries p ds.reverse [] kv hkv with h0 | h0
      · simp at h0
      · exact h0.2.2.symm
    rw [List.map_congr_left hpt]
    exact hnodup
  · intro b hb
    rw [hrc] at hb
    obtain ⟨kv, hkv, hbeq⟩ := List.mem_map.mp hb
    rcases prCloseMark_env_entries p ds.reverse [] kv hkv with h0 | h0
    · simp at h0
    obtain ⟨hin, htrans, hkey⟩ := h0
    have hlk : envLookup kv.1 (prCloseMark p ds.reverse []).2 = some kv.2 :=
      mem_envLookup_of_nodup kv.1 kv.2 _ hnodup hkv
    have hlkm := prCloseMark_lookup p ds.reverse [] kv.1
    rw [hlk, List.reverse_reverse] at hlkm
    cases hfind : ds.find? (isTransientFor kv.1) with
    | none =>
      rw [hfind] at hlkm
      simp [envLookup] at hlkm
    | some x =>
      rw [hfind] at hlkm
      obtain rfl : kv.2 = x := by simpa using hlkm
      have hbenv : b.environment = kv.1 := by
        rw [← hbeq, hkey]
        simp [mkRemoveBody]
      refine ⟨kv.2, by rw [hbenv]; exact hfind, ?_, ?_, ?_, ?_, ?_, ?_, ?_⟩
      all_goals rw [← hbeq]
      all_goals simp [mkRemoveBody]

/-- C4: during a teardown pass every `createDeploymentStatus` call
targets the id of some transient deployment in the listed set (with state
`"inactive"`), and every `"remove"` deployment issued is templated from
some transient deployment in the listed set — a deployment with
`transient_environment = false` is never marked inactive and never serves
as a removal template. -/
theorem prClose_only_transient (p : Provider) (owner repo ref sha : String)
    (ds : List DeploymentRecord)
    (hlist : p.listDeployments (.byRef ref) = .ok ds) :
    (∀ i s, Call.createDeploymentStatus i s ∈
        (handlePRClose p owner repo ref sha).1 →
      s = "inactive" ∧ ∃ d ∈ ds, d.transient_environment = true ∧ d.id = i) ∧
    (∀ b ∈ removeCalls (handlePRClose p owner repo ref sha).1,
      ∃ d ∈ ds, d.transient_environment = true ∧ b = mkRemoveBody sha d) := by
  constructor
  · intro i st hmem
    rw [handlePRClose_trace p owner repo ref sha ds hlist] at hmem
    rcases List.mem_cons.mp hmem with h | h
    · simp at h
    rcases List.mem_append.mp h with h | h
    · rw [prCloseMark_trace] at h
      obtain ⟨d, hd, heq⟩ := List.mem_map.mp h
      have hdf := List.mem_filter.mp hd
      simp only [Call.createDeploymentStatus.injEq] at heq
      exact ⟨heq.2.symm, d, List.mem_reverse.mp hdf.1,
        by simpa using hdf.2, heq.1⟩
    · rw [prCloseRemove_trace] at h
      obtain ⟨kv, hkv, heq⟩ := List.mem_map.mp h
      simp at heq
  · intro b hb
    rw [handlePRClose_removeCalls p owner repo ref sha ds hlist] at hb
    obtain ⟨kv, hkv, hbeq⟩ := List.mem_map.mp hb
    rcases prCloseMark_env_entries p ds.reverse [] kv hkv with h0 | h0
    · simp at h0
    exact ⟨kv.2, List.mem_reverse.mp h0.1, h0.2.1, hbeq.symm⟩

/-- C10: success of the mark-inactive status update is not a
precondition for removal — even when `createDeploymentStatus` fails for a
transient deployment, that deployment's environment still receives a
`"remove"` deployment (with ref the head sha), and the failed status call
itself is still issued. -/
theorem prClose_status_failure_still_removes (p : Provider)
    (owner repo ref sha : String) (ds : List DeploymentRecord)
    (d : DeploymentRecord) (e : String)
    (hlist : p.listDeployments (.byRef ref) = .ok ds)
    (hd : d ∈ ds) (htrans : d.transient_environment = true)
    (_hfail : p.createDeploymentStatus d.id "inactive" = .error e) :
    Call.createDeploymentStatus d.id "inactive" ∈
      (handlePRClose p owner repo ref sha).1 ∧
    ∃ b ∈ removeCalls (handlePRClose p owner repo ref sha).1,
      b.environment = d.environment ∧ b.ref = sha ∧ b.task = "remove" := by
  constructor
  · rw [handlePRClose_trace p owner repo ref sha ds hlist]
    refine List.mem_cons_of_mem _ (List.mem_append.mpr (Or.inl ?_))
    rw [prCloseMark_trace]
    exact List.mem_map.mpr ⟨d,
      List.mem_filter.mpr ⟨List.mem_reverse.mpr hd, by simpa using htrans⟩, rfl⟩
  · have hP : isTransientFor d.environment d = true := by
      simp [isTransientFor, htrans]
    cases hfind : ds.find? (isTransientFor d.environment) with
    | none =>
      rw [List.find?_eq_none] at hfind
      exact absurd hP (by simpa using hfind d hd)
    | some x =>
      have hxenv : x.environment = d.environment := by
        have := List.find?_some hfind
        simp [isTransientFor] at this
        exact this.2
      have hlkm := prCloseMark_lookup p ds.reverse [] d.environment
      rw [List.reverse_reverse, hfind] at hlkm
      have hmem : (d.environment, x) ∈ (prCloseMark p ds.reverse []).2 :=
        envLookup_mem _ _ _ hlkm
      rw [handlePRClose_removeCalls p owner repo ref sha ds hlist]
      exact ⟨mkRemoveBody sha x, List.mem_map.mpr ⟨(d.environment, x), hmem, rfl⟩,
        hxenv, rfl, rfl⟩
/-- Three listed deployments: two transient for `"production"` (the
most-recent first), one non-transient for `"staging"`. -/
def recT1 : DeploymentRecord :=
  { id := 11, environment := "production", payload := .raw "p1"
    description := some "d1", transient_environment := true
    production_environment := false }

def recT2 : DeploymentRecord :=
  { id := 12, environment := "production", payload := .raw "p2"
    description := none, transient_environment := true
    production_environment := false }

def recN : DeploymentRecord :=
  { id := 13, environment := "staging", payload := .raw "p3"
    description := some "d3", transient_environment := false
    production_environment := true }

/-- A teardown provider: marking deployment 11 inactive fails, removals
succeed. -/
def pTD : Provider :=
  { pC1 with
    listDeployments := fun f =>
      match f with
      | .byRef _ => .ok [recT1, recT2, recN]
      | .bySha _ => .ok []
    createDeploymentStatus := fun i _ =>
      if i = 11 then .error "nope" else .ok ()
    createDeployment := fun params =>
      match params with
      | .remove _ _ _ => .ok recA
      | .deploy _ _ _ _ => .error "unused" }

theorem prClose_one_remove_per_env_witness :
    ((removeCalls (handlePRClose pTD "o" "r" "feat" "hsha123").1).map
        (fun b => b.environment)).Nodup ∧
    (∀ b ∈ removeCalls (handlePRClose pTD "o" "r" "feat" "hsha123").1,
      ∃ d, [recT1, recT2, recN].find? (isTransientFor b.environment) = some d ∧
        b.ref = "hsha123" ∧ b.task = "remove" ∧ b.required_contexts = [] ∧
        b.payload = d.payload ∧ b.environment = d.environment ∧
        b.transient_environment = d.transient_environment ∧
        b.production_environment = d.production_environment) :=
  prClose_one_remove_per_env pTD "o" "r" "feat" "hsha123"
    [recT1, recT2, recN] rfl

theorem prClose_only_transient_witness :
    (∀ i s, Call.createDeploymentStatus i s ∈
        (handlePRClose pTD "o" "r" "feat" "hsha123").1 →
      s = "inactive" ∧ ∃ d ∈ [recT1, recT2, recN],
        d.transient_environment = true ∧ d.id = i) ∧
    (∀ b ∈ removeCalls (handlePRClose pTD "o" "r" "feat" "hsha123").1,
      ∃ d ∈ [recT1, recT2, recN], d.transient_environment = true ∧
        b = mkRemoveBody "hsha123" d) :=
  prClose_only_transient pTD "o" "r" "feat" "hsha123" [recT1, recT2, recN] rfl

theorem prClose_status_failure_still_removes_witness :
    Call.createDeploymentStatus recT1.id "inactive" ∈
      (handlePRClose pTD "o" "r" "feat" "hsha123").1 ∧
    ∃ b ∈ removeCalls (handlePRClose pTD "o" "r" "feat" "hsha123").1,
      b.environment = recT1.environment ∧ b.ref = "hsha123" ∧
      b.task = "remove" :=
  prClose_status_failure_still_removes pTD "o" "r" "feat" "hsha123"
    [recT1, recT2, recN] recT1 "nope" rfl (by decide) (by decide) rfl
/-!
### Lock store lemmas (C5)
-/

/-- The id of the critical section currently holding key `k`. -/
def keyOpen (st : LockState) (k : String) : Option Nat :=
  ((lookupKS st k).running).map (fun j => j.jid)

/-- The ids queued on key `k`, in FIFO order. -/
def queueIds (st : LockState) (k : String) : List Nat :=
  ((lookupKS st k).queue).map (fun j => j.jid)

/-- Well-formedness of a key: an idle key has an empty queue (a waiter
is dequeued as soon as the lock is released). -/
def WFKey (st : LockState) (k : String) : Prop :=
  (lookupKS st k).running = none → (lookupKS st k).queue = []

theorem lookupKS_setKS_self (k : String) (ks : KeyState) (st : LockState) :
    lookupKS (setKS k ks st) k = ks := by
  induction st with
  | nil => simp [setKS, lookupKS]
  | cons kv rest ih =>
    obtain ⟨k0, ks0⟩ := kv
    by_cases hk : k0 = k
    · simp [setKS, hk, lookupKS]
    · simp [setKS, hk, lookupKS, ih]

theorem lookupKS_setKS_ne (k q : String) (ks : KeyState) (st : LockState)
    (h : q ≠ k) : lookupKS (setKS k ks st) q = lookupKS st q := by
  induction st with
  | nil =>
    simp [setKS, lookupKS]
    exact fun hq => absurd hq.symm h
  | cons kv rest ih =>
    obtain ⟨k0, ks0⟩ := kv
    by_cases hk : k0 = k
    · subst hk
      have hq : ¬ k0 = q := fun hx => h hx.symm
      simp [setKS, lookupKS, hq]
    · simp [setKS, hk, lookupKS, ih]

theorem projKey_append (k : String) (t1 t2 : List LEvent) :
    projKey k (t1 ++ t2) = projKey k t1 ++ projKey k t2 := by
  simp [projKey, List.filter_append]

theorem altState_append (t1 t2 : List LEvent) (o : Option Nat) :
    altState o (t1 ++ t2) =
      match altState o t1 with
      | none => none
      | some o2 => altState o2 t2 := by
  induction t1 generalizing o with
  | nil => simp [altState]
  | cons ev rest ih =>
    cases ev with
    | start k i =>
      cases o with
      | none => simpa [altState] using ih (some i)
      | some j => simp [altState]
    | settle k i f =>
      cases o with
      | none => simp [altState]
      | some j =>
        by_cases hj : j = i
        · subst hj
          simpa [altState] using ih none
        · simp [altState, hj]
theorem stepKey_other (k q : String) (st : LockState) (g : Nat) (h : q ≠ k) :
    lookupKS (stepKey k st g).1 q = lookupKS st q := by
  cases hrun : (lookupKS st k).running with
  | none => simp [stepKey, hrun]
  | some j =>
    cases hef : j.effects with
    | nil => simp [stepKey, hrun, hef, lookupKS_setKS_ne _ _ _ _ h]
    | cons e rest =>
      cases rest with
      | nil => simp [stepKey, hrun, hef, lookupKS_setKS_ne _ _ _ _ h]
      | cons e2 es => simp [stepKey, hrun, hef, lookupKS_setKS_ne _ _ _ _ h]

theorem stepKey_events_key (k q : String) (st : LockState) (g : Nat)
    (h : q ≠ k) : projKey q (stepKey k st g).2.2 = [] := by
  have hkq : ¬ k = q := fun hx => h hx.symm
  cases hrun : (lookupKS st k).running with
  | none => simp [stepKey, hrun, projKey]
  | some j =>
    cases hef : j.effects with
    | nil =>
      cases hqu : (lookupKS st k).queue with
      | nil => simp [stepKey, hrun, hef, finishJob, hqu, projKey, hkq]
      | cons n rest => simp [stepKey, hrun, hef, finishJob, hqu, projKey, hkq]
    | cons e rest =>
      cases rest with
      | nil =>
        cases hqu : (lookupKS st k).queue with
        | nil => simp [stepKey, hrun, hef, finishJob, hqu, projKey, hkq]
        | cons n r2 => simp [stepKey, hrun, hef, finishJob, hqu, projKey, hkq]
      | cons e2 es => simp [stepKey, hrun, hef, projKey]

theorem stepKey_alt (k : String) (st : LockState) (g : Nat) :
    altState (keyOpen st k) (projKey k (stepKey k st g).2.2) =
      some (keyOpen (stepKey k st g).1 k) := by
  cases hrun : (lookupKS st k).running with
  | none => simp [stepKey, hrun, projKey, altState]
  | some j =>
    cases hef : j.effects with
    | nil =>
      cases hqu : (lookupKS st k).queue with
      | nil =>
        simp [stepKey, hrun, hef, finishJob, hqu, projKey, altState,
          keyOpen, lookupKS_setKS_self, idleKey]
      | cons n rest =>
        simp [stepKey, hrun, hef, finishJob, hqu, projKey, altState,
          keyOpen, lookupKS_setKS_self]
    | cons e rest =>
      cases rest with
      | nil =>
        cases hqu : (lookupKS st k).queue with
        | nil =>
          simp [stepKey, hrun, hef, finishJob, hqu, projKey, altState,
            keyOpen, lookupKS_setKS_self, idleKey]
        | cons n r2 =>
          simp [stepKey, hrun, hef, finishJob, hqu, projKey, altState,
            keyOpen, lookupKS_setKS_self]
      | cons e2 es =>
        simp [stepKey, hrun, hef, projKey, altState, keyOpen,
          lookupKS_setKS_self]

theorem stepKey_fifo (k q : String) (st : LockState) (g : Nat) :
    startIds (projKey q (stepKey k st g).2.2) ++
      queueIds (stepKey k st g).1 q = queueIds st q := by
  by_cases hk : q = k
  · subst hk
    cases hrun : (lookupKS st q).running with
    | none => simp [stepKey, hrun, projKey, startIds]
    | some j =>
      cases hef : j.effects with
      | nil =>
        cases hqu : (lookupKS st q).queue with
        | nil =>
          simp [stepKey, hrun, hef, finishJob, hqu, projKey, startIds,
            queueIds, lookupKS_setKS_self, idleKey]
        | cons n rest =>
          simp [stepKey, hrun, hef, finishJob, hqu, projKey, startIds,
            queueIds, lookupKS_setKS_self]
      | cons e rest =>
        cases rest with
        | nil =>
          cases hqu : (lookupKS st q).queue with
          | nil =>
            simp [stepKey, hrun, hef, finishJob, hqu, projKey, startIds,
              queueIds, lookupKS_setKS_self, idleKey]
          | cons n r2 =>
            simp [stepKey, hrun, hef, finishJob, hqu, projKey, startIds,
              queueIds, lookupKS_setKS_self]
        | cons e2 es =>
          simp [stepKey, hrun, hef, projKey, startIds, queueIds,
            lookupKS_setKS_self]
  · rw [stepKey_events_key k q st g hk]
    have hq : queueIds (stepKey k st g).1 q = queueIds st q := by
      simp [queueIds, stepKey_other k q st g hk]
    simp [startIds, hq]
theorem startIds_append (t1 t2 : List LEvent) :
    startIds (t1 ++ t2) = startIds t1 ++ startIds t2 := by
  simp [startIds, List.filterMap_append]

theorem settleIds_append (t1 t2 : List LEvent) :
    settleIds (t1 ++ t2) = settleIds t1 ++ settleIds t2 := by
  simp [settleIds, List.filterMap_append]

theorem runSched_alt (sched : List String) (st : LockState) (g : Nat)
    (k : String) :
    altState (keyOpen st k) (projKey k (runSched sched st g).2.2) =
      some (keyOpen (runSched sched st g).1 k) := by
  induction sched generalizing st g with
  | nil => simp [runSched, altState, projKey]
  | cons k0 rest ih =>
    simp only [runSched]
    rw [projKey_append, altState_append]
    by_cases hk : k0 = k
    · subst hk
      rw [stepKey_alt k0 st g]
      exact ih _ _
    · have hne : k ≠ k0 := fun hx => hk hx.symm
      rw [stepKey_events_key k0 k st g hne]
      have hopen : keyOpen (stepKey k0 st g).1 k = keyOpen st k := by
        simp [keyOpen, stepKey_other k0 k st g hne]
      simp only [altState]
      rw [← hopen]
      exact ih _ _

theorem runSched_fifo (sched : List String) (st : LockState) (g : Nat)
    (q : String) :
    startIds (projKey q (runSched sched st g).2.2) ++
      queueIds (runSched sched st g).1 q = queueIds st q := by
  induction sched generalizing st g with
  | nil => simp [runSched, startIds, projKey]
  | cons k0 rest ih =>
    simp only [runSched]
    rw [projKey_append, startIds_append, List.append_assoc, ih]
    exact stepKey_fifo k0 q st g

theorem acquire_other (kq q : String) (j : Job) (st : LockState)
    (h : q ≠ kq) : lookupKS (acquire kq j st).1 q = lookupKS st q := by
  cases hrun : (lookupKS st kq).running with
  | none => simp [acquire, hrun, lookupKS_setKS_ne _ _ _ _ h]
  | some x => simp [acquire, hrun, lookupKS_setKS_ne _ _ _ _ h]

theorem acquire_events_key (kq q : String) (j : Job) (st : LockState)
    (h : q ≠ kq) : projKey q (acquire kq j st).2 = [] := by
  have hkq : ¬ kq = q := fun hx => h hx.symm
  cases hrun : (lookupKS st kq).running with
  | none => simp [acquire, hrun, projKey, hkq]
  | some x => simp [acquire, hrun, projKey]

theorem acquire_alt (k : String) (j : Job) (st : LockState) :
    altState (keyOpen st k) (projKey k (acquire k j st).2) =
      some (keyOpen (acquire k j st).1 k) := by
  cases hrun : (lookupKS st k).running with
  | none =>
    simp [acquire, hrun, projKey, altState, keyOpen, lookupKS_setKS_self]
  | some x =>
    simp [acquire, hrun, projKey, altState, keyOpen, lookupKS_setKS_self]

theorem acquire_wf (kq q : String) (j : Job) (st : LockState)
    (h : WFKey st q) : WFKey (acquire kq j st).1 q := by
  by_cases hk : q = kq
  · subst hk
    cases hrun : (lookupKS st q).running with
    | none =>
      intro habs
      rw [acquire] at habs ⊢
      rw [hrun] at habs ⊢
      simp [lookupKS_setKS_self] at habs
    | some x =>
      intro habs
      rw [acquire] at habs
      rw [hrun] at habs
      simp [lookupKS_setKS_self] at habs
  · intro habs
    rw [WFKey] at h
    rw [acquire_other kq q j st hk] at habs ⊢
    exact h habs

theorem acquire_fifo (kq q : String) (j : Job) (st : LockState)
    (hwf : WFKey st q) :
    startIds (projKey q (acquire kq j st).2) ++ queueIds (acquire kq j st).1 q =
      queueIds st q ++ (if q = kq then [j.jid] else []) := by
  by_cases hk : q = kq
  · subst hk
    cases hrun : (lookupKS st q).running with
    | none =>
      have hq : (lookupKS st q).queue = [] := hwf hrun
      simp [acquire, hrun, projKey, startIds, queueIds,
        lookupKS_setKS_self, hq]
    | some x =>
      simp [acquire, hrun, projKey, startIds, queueIds, lookupKS_setKS_self]
  · rw [acquire_events_key kq q j st hk]
    have hq : queueIds (acquire kq j st).1 q = queueIds st q := by
      simp [queueIds, acquire_other kq q j st hk]
    simp [startIds, hq, hk]

theorem acquireAll_alt (calls : List (String × Job)) (st : LockState)
    (k : String) :
    altState (keyOpen st k) (projKey k (acquireAll calls st).2) =
      some (keyOpen (acquireAll calls st).1 k) := by
  induction calls generalizing st with
  | nil => simp [acquireAll, altState, projKey]
  | cons c rest ih =>
    obtain ⟨kq, j⟩ := c
    simp only [acquireAll]
    rw [projKey_append, altState_append]
    by_cases hk : kq = k
    · subst hk
      rw [acquire_alt kq j st]
      exact ih _
    · have hne : k ≠ kq := fun hx => hk hx.symm
      rw [acquire_events_key kq k j st hne]
      have hopen : keyOpen (acquire kq j st).1 k = keyOpen st k := by
        simp [keyOpen, acquire_other kq k j st hne]
      simp only [altState]
      rw [← hopen]
      exact ih _

theorem acquireAll_wf (calls : List (String × Job)) (st : LockState)
    (q : String) (h : WFKey st q) : WFKey (acquireAll calls st).1 q := by
  induction calls generalizing st with
  | nil => simpa [acquireAll] using h
  | cons c rest ih =>
    obtain ⟨kq, j⟩ := c
    simp only [acquireAll]
    exact ih _ (acquire_wf kq q j st h)

theorem acquireAll_fifo (calls : List (String × Job)) (st : LockState)
    (q : String) (hwf : WFKey st q) :
    startIds (projKey q (acquireAll calls st).2) ++
      queueIds (acquireAll calls st).1 q =
      queueIds st q ++ callIds q calls := by
  induction calls generalizing st with
  | nil => simp [acquireAll, startIds, projKey, callIds]
  | cons c rest ih =>
    obtain ⟨kq, j⟩ := c
    simp only [acquireAll]
    rw [projKey_append, startIds_append, List.append_assoc,
      ih _ (acquire_wf kq q j st hwf), ← List.append_assoc,
      acquire_fifo kq q j st hwf, List.append_assoc]
    by_cases hk : q = kq
    · subst hk
      have hcall : callIds q ((q, j) :: rest) = j.jid :: callIds q rest := by
        simp [callIds]
      rw [hcall]
      simp
    · have hkq : ¬ kq = q := fun hx => hk hx.symm
      have hcall : callIds q ((kq, j) :: rest) = callIds q rest := by
        simp [callIds, hkq]
      rw [hcall]
      simp [hk]
theorem stepKey_congr (k : String) (st st' : LockState) (g g' : Nat)
    (h : lookupKS st k = lookupKS st' k) :
    (stepKey k st g).2.2 = (stepKey k st' g').2.2 ∧
    lookupKS (stepKey k st g).1 k = lookupKS (stepKey k st' g').1 k := by
  unfold stepKey
  rw [← h]
  cases hrun : (lookupKS st k).running with
  | none => simp [← h, hrun]
  | some j =>
    cases hef : j.effects with
    | nil => simp [hrun, hef, lookupKS_setKS_self]
    | cons e rest =>
      cases rest with
      | nil => simp [hrun, hef, lookupKS_setKS_self]
      | cons e2 es => simp [hrun, hef, lookupKS_setKS_self]

theorem acquire_congr (k : String) (j : Job) (st st' : LockState)
    (h : lookupKS st k = lookupKS st' k) :
    (acquire k j st).2 = (acquire k j st').2 ∧
    lookupKS (acquire k j st).1 k = lookupKS (acquire k j st').1 k := by
  unfold acquire
  rw [← h]
  cases hrun : (lookupKS st k).running with
  | none => simp [hrun, lookupKS_setKS_self]
  | some x => simp [hrun, lookupKS_setKS_self]

theorem runSched_proj_congr (k : String) (sched : List String) :
    ∀ (st st' : LockState) (g g' : Nat), lookupKS st k = lookupKS st' k →
    projKey k (runSched sched st g).2.2 =
      projKey k (runSched (sched.filter (fun x => x == k)) st' g').2.2 ∧
    lookupKS (runSched sched st g).1 k =
      lookupKS (runSched (sched.filter (fun x => x == k)) st' g').1 k := by
  induction sched with
  | nil => exact fun st st' g g' h => ⟨rfl, h⟩
  | cons k0 rest ih =>
    intro st st' g g' h
    by_cases hk : k0 = k
    · subst hk
      have hfil : (k0 :: rest).filter (fun x => x == k0) =
          k0 :: rest.filter (fun x => x == k0) := by simp
      rw [hfil]
      have hstep := stepKey_congr k0 st st' g g' h
      have hrest := ih (stepKey k0 st g).1 (stepKey k0 st' g').1
        (stepKey k0 st g).2.1 (stepKey k0 st' g').2.1 hstep.2
      constructor
      · simp only [runSched]
        rw [projKey_append, projKey_append, hstep.1, hrest.1]
      · simp only [runSched]
        exact hrest.2
    · have hne : k ≠ k0 := fun hx => hk hx.symm
      have hfil : (k0 :: rest).filter (fun x => x == k) =
          rest.filter (fun x => x == k) := by simp [hk]
      rw [hfil]
      have hmid : lookupKS (stepKey k0 st g).1 k = lookupKS st' k := by
        rw [stepKey_other k0 k st g hne, h]
      have hrest := ih (stepKey k0 st g).1 st' (stepKey k0 st g).2.1 g' hmid
      constructor
      · simp only [runSched]
        rw [projKey_append, stepKey_events_key k0 k st g hne]
        simpa using hrest.1
      · simp only [runSched]
        exact hrest.2

theorem acquireAll_proj_congr (k : String) (calls : List (String × Job)) :
    ∀ (st st' : LockState), lookupKS st k = lookupKS st' k →
    projKey k (acquireAll calls st).2 =
      projKey k (acquireAll (calls.filter (fun c => c.1 == k)) st').2 ∧
    lookupKS (acquireAll calls st).1 k =
      lookupKS (acquireAll (calls.filter (fun c => c.1 == k)) st').1 k := by
  induction calls with
  | nil => exact fun st st' h => ⟨rfl, h⟩
  | cons c rest ih =>
    intro st st' h
    obtain ⟨kq, j⟩ := c
    by_cases hk : kq = k
    · subst hk
      have hfil : (((kq, j) : String × Job) :: rest).filter
          (fun c => c.1 == kq) =
          (kq, j) :: rest.filter (fun c => c.1 == kq) := by simp
      rw [hfil]
      have hacq := acquire_congr kq j st st' h
      have hrest := ih (acquire kq j st).1 (acquire kq j st').1 hacq.2
      constructor
      · simp only [acquireAll]
        rw [projKey_append, projKey_append, hacq.1, hrest.1]
      · simp only [acquireAll]
        exact hrest.2
    · have hne : k ≠ kq := fun hx => hk hx.symm
      have hfil : (((kq, j) : String × Job) :: rest).filter
          (fun c => c.1 == k) = rest.filter (fun c => c.1 == k) := by
        simp [hk]
      rw [hfil]
      have hmid : lookupKS (acquire kq j st).1 k = lookupKS st' k := by
        rw [acquire_other kq k j st hne, h]
      have hrest := ih (acquire kq j st).1 st' hmid
      constructor
      · simp only [acquireAll]
        rw [projKey_append, acquire_events_key kq k j st hne]
        simpa using hrest.1
      · simp only [acquireAll]
        exact hrest.2
/-- State of a single-key store after the running job settles. -/
def afterState (k : String) (q : List Job) : LockState :=
  match q with
  | [] => [(k, idleKey)]
  | nxt :: rest => [(k, { running := some nxt, queue := rest })]

/-- Events emitted when a job settles in front of queue `q`. -/
def finishEvents (k : String) (jid : Nat) (f : Bool) (q : List Job) :
    List LEvent :=
  match q with
  | [] => [.settle k jid f]
  | nxt :: _ => [.settle k jid f, .start k nxt.jid]

/-- The serialized event sequence of a single-key run: each queued job
settles in turn, releasing the lock to the next. -/
def expectEvents (k : String) : Job → List Job → List LEvent
  | j, [] => [.settle k j.jid j.fails]
  | j, nxt :: rest =>
    .settle k j.jid j.fails :: .start k nxt.jid :: expectEvents k nxt rest

theorem runSched_append (s1 s2 : List String) (st : LockState) (g : Nat) :
    runSched (s1 ++ s2) st g =
      ((runSched s2 (runSched s1 st g).1 (runSched s1 st g).2.1).1,
       (runSched s2 (runSched s1 st g).1 (runSched s1 st g).2.1).2.1,
       (runSched s1 st g).2.2 ++
         (runSched s2 (runSched s1 st g).1 (runSched s1 st g).2.1).2.2) := by
  induction s1 generalizing st g with
  | nil => simp [runSched]
  | cons k rest ih => simp [runSched, ih]

theorem acquireAll_single (k : String) (jobs : List Job) :
    ∀ (q : List Job) (j : Job),
    acquireAll (jobs.map (fun x => (k, x)))
        [(k, { running := some j, queue := q })] =
      ([(k, { running := some j, queue := q ++ jobs })], []) := by
  induction jobs with
  | nil =>
    intro q j
    simp [acquireAll]
  | cons x rest ih =>
    intro q j
    have hlk : lookupKS [(k, { running := some j, queue := q })] k =
        { running := some j, queue := q } := by simp [lookupKS]
    have hacq : acquire k x [(k, { running := some j, queue := q })] =
        ([(k, { running := some j, queue := q ++ [x] })], []) := by
      simp [acquire, hlk, setKS]
    simp only [List.map_cons, acquireAll, hacq]
    rw [ih (q ++ [x]) j]
    simp

theorem runOne (k : String) (jid : Nat) (f : Bool) (q : List Job) :
    ∀ (es : List (Nat → Nat)) (g : Nat),
    runSched (List.replicate (quanta ⟨jid, es, f⟩) k)
        [(k, { running := some ⟨jid, es, f⟩, queue := q })] g =
      (afterState k q, applyEffects es g, finishEvents k jid f q) := by
  intro es
  induction es with
  | nil =>
    intro g
    have hq : quanta ⟨jid, ([] : List (Nat → Nat)), f⟩ = 1 := by
      simp [quanta]
    rw [hq]
    have hlk : lookupKS
        [(k, { running := some (⟨jid, [], f⟩ : Job), queue := q })] k =
        { running := some ⟨jid, [], f⟩, queue := q } := by simp [lookupKS]
    cases q with
    | nil =>
      simp [runSched, stepKey, hlk, finishJob, setKS, applyEffects,
        afterState, finishEvents]
    | cons nxt rest =>
      simp [runSched, stepKey, hlk, finishJob, setKS, applyEffects,
        afterState, finishEvents]
  | cons e tail ih =>
    intro g
    cases tail with
    | nil =>
      have hq : quanta ⟨jid, [e], f⟩ = 1 := by simp [quanta]
      rw [hq]
      have hlk : lookupKS
          [(k, { running := some (⟨jid, [e], f⟩ : Job), queue := q })] k =
          { running := some ⟨jid, [e], f⟩, queue := q } := by simp [lookupKS]
      cases q with
      | nil =>
        simp [runSched, stepKey, hlk, finishJob, setKS, applyEffects,
          afterState, finishEvents]
      | cons nxt rest =>
        simp [runSched, stepKey, hlk, finishJob, setKS, applyEffects,
          afterState, finishEvents]
    | cons e2 es2 =>
      have hq : quanta ⟨jid, e :: e2 :: es2, f⟩ =
          quanta ⟨jid, e2 :: es2, f⟩ + 1 := by
        simp [quanta]
      rw [hq, List.replicate_succ]
      have hlk : lookupKS
          [(k,
            { running := some (⟨jid, e :: e2 :: es2, f⟩ : Job), queue := q })]
          k =
          { running := some ⟨jid, e :: e2 :: es2, f⟩, queue := q } := by
        simp [lookupKS]
      have hstep : stepKey k
          [(k,
            { running := some (⟨jid, e :: e2 :: es2, f⟩ : Job), queue := q })]
          g =
          ([(k, { running := some (⟨jid, e2 :: es2, f⟩ : Job), queue := q })],
            e g, []) := by
        simp [stepKey, hlk, setKS]
      simp only [runSched, hstep]
      rw [ih (e g)]
      simp [applyEffects]

theorem runSeq (k : String) : ∀ (q : List Job) (j : Job) (g : Nat),
    runSched (List.replicate (quanta j + quantaSum q) k)
        [(k, { running := some j, queue := q })] g =
      ([(k, idleKey)], seqApply (j :: q) g, expectEvents k j q) := by
  intro q
  induction q with
  | nil =>
    intro j g
    obtain ⟨jid, es, f⟩ := j
    have h := runOne k jid f [] es g
    simpa [quantaSum, seqApply, afterState, finishEvents, expectEvents,
      applyEffects] using h
  | cons nxt rest ih =>
    intro j g
    obtain ⟨jid, es, f⟩ := j
    have hsum : quantaSum (nxt :: rest) = quanta nxt + quantaSum rest := by
      simp [quantaSum]
    rw [List.replicate_add, runSched_append, runOne k jid f (nxt :: rest) es g]
    simp only [afterState]
    rw [hsum, ih nxt (applyEffects es g)]
    simp [seqApply, expectEvents, finishEvents, applyEffects]

theorem settleIds_expect (k : String) : ∀ (q : List Job) (j : Job),
    settleIds (expectEvents k j q) = j.jid :: q.map (fun x => x.jid) := by
  intro q
  induction q with
  | nil => intro j; simp [expectEvents, settleIds]
  | cons nxt rest ih =>
    intro j
    simp [expectEvents, settleIds] at ih ⊢
    exact ih nxt

theorem startIds_expect (k : String) : ∀ (q : List Job) (j : Job),
    startIds (expectEvents k j q) = q.map (fun x => x.jid) := by
  intro q
  induction q with
  | nil => intro j; simp [expectEvents, startIds]
  | cons nxt rest ih =>
    intro j
    simp [expectEvents, startIds] at ih ⊢
    exact ih nxt
/-- C5: the lock store serializes critical sections per key.  For every
set of concurrent `withLock` calls and every scheduler interleaving:
(1) each key's event sequence strictly alternates start/settle with
matching ids — at most one critical section runs per key at any instant,
and each waits for the prior one's settlement (success or failure alike)
before starting; (2) sections start in FIFO call order (the started ids
are a prefix of the call ids); (3) a key's event sequence is exactly what
it would be if only that key's calls existed and other keys were never
scheduled — distinct keys never block each other; (4) N calls on one key,
given enough quanta, settle exactly N times in call order — a failing
section still releases the lock to the next waiter — and the shared
counter equals N sequential applications (the canonical
"counts sequentially" scenario). -/
theorem lockStore_serializes (calls : List (String × Job))
    (sched : List String) (g g' : Nat) (k : String) (jobs : List Job)
    (g0 : Nat) :
    altSeq (projKey k (lockRun calls sched g).2.2) = true ∧
    (∃ t, startIds (projKey k (lockRun calls sched g).2.2) ++ t =
      callIds k calls) ∧
    projKey k (lockRun calls sched g).2.2 =
      projKey k (lockRun (calls.filter (fun c => c.1 == k))
        (sched.filter (fun x => x == k)) g').2.2 ∧
    (settleIds (lockRun (jobs.map (fun j => (k, j)))
        (List.replicate (quantaSum jobs) k) g0).2.2 =
      jobs.map (fun j => j.jid) ∧
     startIds (lockRun (jobs.map (fun j => (k, j)))
        (List.replicate (quantaSum jobs) k) g0).2.2 =
      jobs.map (fun j => j.jid) ∧
     (lockRun (jobs.map (fun j => (k, j)))
        (List.replicate (quantaSum jobs) k) g0).2.1 = seqApply jobs g0) := by
  refine ⟨?_, ?_, ?_, ?_⟩
  · have hacq := acquireAll_alt calls [] k
    have hrun := runSched_alt sched (acquireAll calls []).1 g k
    have hnone : keyOpen ([] : LockState) k = none := rfl
    rw [hnone] at hacq
    simp only [lockRun]
    rw [projKey_append, altSeq, altState_append, hacq]
    simp [hrun]
  · have hwf0 : WFKey ([] : LockState) k := fun _ => rfl
    have hA := acquireAll_fifo calls [] k hwf0
    have hR := runSched_fifo sched (acquireAll calls []).1 g k
    refine ⟨queueIds (runSched sched (acquireAll calls []).1 g).1 k, ?_⟩
    simp only [lockRun]
    rw [projKey_append, startIds_append, List.append_assoc, hR]
    simpa using hA
  · have hacq := acquireAll_proj_congr k calls [] [] rfl
    have hrun := runSched_proj_congr k sched (acquireAll calls []).1
      (acquireAll (calls.filter (fun c => c.1 == k)) []).1 g g' hacq.2
    simp only [lockRun]
    rw [projKey_append, projKey_append, hacq.1, hrun.1]
  · cases jobs with
    | nil =>
      simp [lockRun, acquireAll, quantaSum, runSched, settleIds, startIds,
        seqApply, projKey]
    | cons j rest =>
      have hacq1 : acquire k j ([] : LockState) =
          ([(k, { running := some j, queue := [] })], [.start k j.jid]) := by
        simp [acquire, lookupKS, setKS, idleKey]
      have hacq : acquireAll ((j :: rest).map (fun x => (k, x))) [] =
          ([(k, { running := some j, queue := rest })], [.start k j.jid]) := by
        simp only [List.map_cons, acquireAll, hacq1]
        rw [acquireAll_single k rest [] j]
        simp
      have hsum : quantaSum (j :: rest) = quanta j + quantaSum rest := by
        simp [quantaSum]
      simp only [lockRun, hacq, hsum]
      rw [runSeq k rest j g0]
      refine ⟨?_, ?_, ?_⟩
      · rw [settleIds_append, settleIds_expect]
        simp [settleIds]
      · rw [startIds_append, startIds_expect]
        simp [startIds]
      · simp
end Deliverybot
